import Mathlib

/-! # saw: live-tail engine and query builder

A shallow embedding of the parts of `blade/blade.go` and
`config/configuration.go` that carry the tool's state and algorithms:

* `Blade.StreamEvents` (blade.go 105-151), the perpetual poll / dedup loop;
* `getTime`, `Configuration.TopStreamNames` and
  `Configuration.FilterLogEventsInput` (configuration.go 24-127).

Conventions.  AWS SDK pointer fields (`*int64`, `*string`) are `Option`s and
are read through `aws.ToInt64` / `aws.ToString`, which give `0` / `""` for
`nil`.  The Go `map[string]bool` used as a set is a list of keys with
membership.  Timestamps are `int64` values that are only compared and copied,
so they are integers.

What the backend answers to each query is an input of the model: a run of the
loop is driven by the list of polls it has received so far, each poll being
the list of pages the paginator returned, each page a list of events.  The
loop itself never ends, and a transport error ends the process; the model
runs any finite, error-free stretch of it from its start.

Go library routines called by the code (`sort.Slice`, `time.ParseDuration`,
`time.Parse`) are parameters of the functions that call them.
-/

namespace Saw

/-! ## AWS SDK helpers and records -/

/-- Go helper `aws.ToInt64`: dereference, `0` for `nil`. -/
def toInt64 : Option Int → Int
  | some v => v
  | none => 0

/-- Go helper `aws.ToString`: dereference, `""` for `nil`. -/
def toStr : Option String → String
  | some s => s
  | none => ""

/-- The fields of `types.FilteredLogEvent` read by the program. -/
structure FilteredLogEvent where
  EventId : Option String
  LogStreamName : Option String
  Message : Option String
  Timestamp : Option Int
  deriving DecidableEq, Repr

/-- The value `aws.ToInt64(event.Timestamp)` (blade.go 125). -/
def FilteredLogEvent.timestamp (e : FilteredLogEvent) : Int := toInt64 e.Timestamp

/-- The value `aws.ToString(event.EventId)` (blade.go 131). -/
def FilteredLogEvent.eventID (e : FilteredLogEvent) : String := toStr e.EventId

/-! ## Blade.StreamEvents -/

/-- The mutable state of `StreamEvents`: the two locals `lastSeenTime` and
`seenEventIDs`, the `StartTime` field of the query `input`, and the records
handed to `fmt.Println` so far, oldest first (one entry per executed
`fmt.Println(message)` on line 140, standing for the rendered text of that
record). -/
structure TailState where
  lastSeenTime : Option Int
  seenEventIDs : List String
  startTime : Option Int
  printed : List FilteredLogEvent
  deriving DecidableEq, Repr

/-- State on entry to the outer `for` (blade.go 106-109): `lastSeenTime` is
nil, the map is empty, `input.StartTime` is whatever `FilterLogEventsInput`
computed from the configuration. -/
def TailState.init (startTime : Option Int) : TailState :=
  { lastSeenTime := none, seenEventIDs := [], startTime := startTime, printed := [] }

/-- Lines 125-129: advance `lastSeenTime` and clear the map when the window
is unset or the record is strictly newer. -/
def advanceWindow (st : TailState) (e : FilteredLogEvent) : TailState :=
  match st.lastSeenTime with
  | none => { st with lastSeenTime := some e.timestamp, seenEventIDs := [] }
  | some t =>
    if e.timestamp > t then
      { st with lastSeenTime := some e.timestamp, seenEventIDs := [] }
    else st

/-- Body of the innermost loop (blade.go 124-143) for one record. -/
def processEvent (st : TailState) (e : FilteredLogEvent) : TailState :=
  let st1 := advanceWindow st e
  if e.eventID ∈ st1.seenEventIDs then st1
  else { st1 with printed := st1.printed ++ [e], seenEventIDs := e.eventID :: st1.seenEventIDs }

/-- The `for _, event := range output.Events` loop over records in arrival order. -/
def processEvents (st : TailState) (es : List FilteredLogEvent) : TailState :=
  es.foldl processEvent st

/-- One page of a paginator. -/
abbrev Page := List FilteredLogEvent

/-- Everything one paginator returned before `HasMorePages` became false. -/
abbrev Poll := List Page

/-- The `for paginator.HasMorePages()` loop (blade.go 117-144). -/
def drainPages (st : TailState) (pages : Poll) : TailState :=
  pages.foldl processEvents st

/-- One iteration of the outer `for` (blade.go 116-149): drain the
paginator, then write `lastSeenTime` into `input.StartTime` when it is set. -/
def pollCycle (st : TailState) (pages : Poll) : TailState :=
  let st1 := drainPages st pages
  match st1.lastSeenTime with
  | some t => { st1 with startTime := some t }
  | none => st1

/-- Several iterations of the outer loop from a given state. -/
def runPolls (st : TailState) (polls : List Poll) : TailState :=
  polls.foldl pollCycle st

/-- The state of `StreamEvents` (blade.go 105-151) after it has completed the
given polls, starting with `input.StartTime` as given. -/
def StreamEvents (startTime : Option Int) (polls : List Poll) : TailState :=
  runPolls (TailState.init startTime) polls

/-- The records of a run in arrival order, pages and polls flattened. -/
def arrivals (polls : List Poll) : List FilteredLogEvent :=
  (polls.map List.flatten).flatten

/-- The states after each processed record, in order. -/
def statesAfterEvents (st : TailState) : List FilteredLogEvent → List TailState
  | [] => []
  | e :: es => processEvent st e :: statesAfterEvents (processEvent st e) es

/-- The states at the end of each cycle, in order. -/
def statesAfterCycles (st : TailState) : List Poll → List TailState
  | [] => []
  | p :: ps => pollCycle st p :: statesAfterCycles (pollCycle st p) ps

/-- Identifiers of a list of records. -/
def eventIDs (es : List FilteredLogEvent) : List String :=
  es.map FilteredLogEvent.eventID

/-- Test records of the end-to-end scenario. -/
def mkEvent (id : String) (t : Int) : FilteredLogEvent :=
  { EventId := some id, LogStreamName := none, Message := none, Timestamp := some t }

/-! ### Properties of runs and test inputs -/

/-- Timestamps never go back in arrival order. -/
def InOrder (es : List FilteredLogEvent) : Prop :=
  es.Pairwise (fun a b => a.timestamp ≤ b.timestamp)

/-- Records carrying the same identifier carry the same timestamp. -/
def SameIdSameTime (es : List FilteredLogEvent) : Prop :=
  ∀ e ∈ es, ∀ f ∈ es, e.eventID = f.eventID → e.timestamp = f.timestamp

instance (es : List FilteredLogEvent) : Decidable (InOrder es) := by
  unfold InOrder; infer_instance

instance (es : List FilteredLogEvent) : Decidable (SameIdSameTime es) := by
  unfold SameIdSameTime; infer_instance

/-- Order on optional instants used for the window: once set, it stays set
and does not go back. -/
def windowLe (a b : Option Int) : Prop :=
  ∀ x, a = some x → ∃ y, b = some y ∧ x ≤ y

/-- The value of `lastSeenTime` after each processed record of a run, in
order, with the state threaded through the cycles as the loop does. -/
def lastSeenTimeTrace (st : TailState) : List Poll → List (Option Int)
  | [] => []
  | p :: ps =>
    (statesAfterEvents st p.flatten).map TailState.lastSeenTime
      ++ lastSeenTimeTrace (pollCycle st p) ps

/-- The relation between the states at the end of two cycles, the first
before the second: a `lastSeenTime` set at the end of the earlier cycle was
written into `input.StartTime`, and at the end of the later cycle
`lastSeenTime` is set, written into `input.StartTime`, and not smaller. -/
def CycleLe (s s' : TailState) : Prop :=
  ∀ a, s.lastSeenTime = some a →
    s.startTime = some a ∧ ∃ b, s'.lastSeenTime = some b ∧ s'.startTime = some b ∧ a ≤ b

/-- Records arriving out of order: one poll returning A(t=105,id=1) and then
B(t=100,id=2). -/
def outOfOrderPolls : List Poll :=
  [[[mkEvent "1" 105, mkEvent "2" 100]]]

/-- The end-to-end scenario: poll 1 returns A(t=100,id=1), B(t=100,id=2);
poll 2 returns A(t=100,id=1), C(t=105,id=3). -/
def scenarioPolls : List Poll :=
  [[[mkEvent "1" 100, mkEvent "2" 100]], [[mkEvent "1" 100, mkEvent "3" 105]]]

/-- A redelivery behind the window: poll 1 returns A(t=100,id=1),
B(t=105,id=2); poll 2 returns A(t=100,id=1) again. -/
def staleRedeliveryPolls : List Poll :=
  [[[mkEvent "1" 100, mkEvent "2" 105]], [[mkEvent "1" 100]]]

/-! ## config: streams and stream selection -/

/-- The fields of `types.LogStream` read by the program. -/
structure LogStream where
  LogStreamName : Option String
  LastEventTimestamp : Option Int
  deriving DecidableEq, Repr

/-- The value `aws.ToInt64(stream.LastEventTimestamp)`. -/
def LogStream.lastEvent (s : LogStream) : Int := toInt64 s.LastEventTimestamp

/-- The value `aws.ToString(stream.LogStreamName)`. -/
def LogStream.name (s : LogStream) : String := toStr s.LogStreamName

/-- The struct `config.Configuration` (configuration.go 13-22). -/
structure Configuration where
  Group : String
  Prefix : String
  Start : String
  End : String
  Filter : String
  Streams : List LogStream
  Descending : Bool
  OrderBy : String
  deriving DecidableEq, Repr

/-- The closure handed to `sort.Slice` (configuration.go 112-114), on the
elements it compares: strictly later last event first. -/
def streamLess (a b : LogStream) : Bool :=
  decide (a.lastEvent > b.lastEvent)

/-- Go's `sort.Slice` is a library routine outside the repository; it enters
the model as a parameter: a function from the comparison and the slice to
the reordered slice. -/
abbrev SliceSorter := (LogStream → LogStream → Bool) → List LogStream → List LogStream

/-- What the documentation of `sort.Slice` promises for the comparison used
here: the result is a rearrangement of the slice in which no element is
`less` than one placed before it.  Nothing is promised about elements that
compare equal ("the sort is not guaranteed to be stable"). -/
def SortsSlice (sortSlice : SliceSorter) : Prop :=
  ∀ l : List LogStream,
    (sortSlice streamLess l).Perm l ∧
      (sortSlice streamLess l).Pairwise (fun a b => streamLess b a = false)

/-- The slice `c.Streams` after the `sort.Slice` call, which reorders it in
place. -/
def Configuration.sortedStreams (sortSlice : SliceSorter) (c : Configuration) :
    List LogStream :=
  sortSlice streamLess c.Streams

/-- The method `Configuration.TopStreamNames` (configuration.go 109-127): the value
returned.  The receiver's `Streams` is left holding `sortedStreams`. -/
def Configuration.TopStreamNames (sortSlice : SliceSorter) (c : Configuration) :
    List String :=
  let streams := c.sortedStreams sortSlice
  let numStreams := if streams.length < 100 then streams.length else 100
  (streams.take numStreams).map LogStream.name

/-- Not later than, by last event: `a` may stand before `b` in a descending
order. -/
def descLe (a b : LogStream) : Prop := b.lastEvent ≤ a.lastEvent

/-- A sorter that keeps ties in their original order: insertion sort, each
element inserted before the first one that is not `less` than it. -/
def stableSorter : SliceSorter :=
  fun less l => l.insertionSort (fun a b => less b a = false)

/-- The stable descending-by-timestamp sort of the wording of the
specification: streams with equal timestamps keep their original order. -/
def stableSortDescending (l : List LogStream) : List LogStream :=
  stableSorter streamLess l

/-- The result the specification words for ties: the first `min(100, n)`
names of the stable descending sort. -/
def stableTopNames (l : List LogStream) : List String :=
  ((stableSortDescending l).take (min 100 l.length)).map LogStream.name

/-- A sorter keeps ties in their original order when, for every timestamp,
the streams with that timestamp come out in the order they went in. -/
def KeepsTies (sortSlice : SliceSorter) : Prop :=
  ∀ (l : List LogStream) (t : Int),
    (sortSlice streamLess l).filter (fun s => decide (s.lastEvent = t))
      = l.filter (fun s => decide (s.lastEvent = t))

/-- A sorter within the documented behaviour of `sort.Slice` that does not
keep ties in their original order: it reverses the slice (as pattern-defeating
quicksort does with a slice it finds in descending order of `less`) and then
sorts what it got. -/
def reversingSorter : SliceSorter :=
  fun less l => l.reverse.insertionSort (fun a b => less b a = false)

/-- A stream named `s<i>` whose last event is at `t`. -/
def mkStream (i : Nat) (t : Int) : LogStream :=
  { LogStreamName := some ("s" ++ toString i), LastEventTimestamp := some t }

/-- Streams `s0 .. s100`, stream `i` with last event at `1000 + 7 * i`,
oldest first. -/
def manyStreams : List LogStream :=
  (List.range 101).map (fun i => mkStream i (1000 + 7 * (i : Int)))

/-- Fifty streams, oldest first, the first two with the same last-event
timestamp: `s0` and `s1` at 1, then `s<i>` at `i`. -/
def tiedStreams : List LogStream :=
  mkStream 0 1 :: (List.range 49).map (fun i => mkStream (i + 1) ((i : Int) + 1))

/-- A configuration with the given streams and nothing else set. -/
def streamsConfig (streams : List LogStream) : Configuration :=
  { Group := "group", Prefix := "", Start := "", End := "", Filter := "",
    Streams := streams, Descending := false, OrderBy := "" }

/-! ## config: time bounds and the filter query -/

/-- An instant (`time.Time`), as nanoseconds since the Unix epoch. -/
abbrev Time := Int

/-- A `time.Duration`, in nanoseconds. -/
abbrev Duration := Int

/-- The two routines of Go's `time` package called by `getTime`.  They are
library code outside the repository and enter the model as parameters;
`none` stands for a non-nil `error`.  `parse layout value` is
`time.Parse(layout, value)`. -/
structure TimeLib where
  parseDuration : String → Option Duration
  parse : String → String → Option Time

/-- The layout constant `time.RFC3339`. -/
def RFC3339 : String := "2006-01-02T15:04:05Z07:00"

/-- The list `absoluteTimeFormats` (configuration.go 25-29). -/
def absoluteTimeFormats : List String :=
  [RFC3339, "2006-01-02", "2006-01-02 15:04:05"]

/-- The loop over `absoluteTimeFormats` in `getTime` (configuration.go
40-47): the first layout that parses wins; when none does, the error. -/
def parseAbsolute (lib : TimeLib) (timeStr : String) : List String → Except String Time
  | [] => .error "Could not parse relative or absolute time"
  | timeFormat :: rest =>
    match lib.parse timeFormat timeStr with
    | some absolute => .ok absolute
    | none => parseAbsolute lib timeStr rest

/-- The function `getTime` (configuration.go 33-48). -/
def getTime (lib : TimeLib) (timeStr : String) (currentTime : Time) : Except String Time :=
  match lib.parseDuration timeStr with
  | some relative => .ok (currentTime + relative)
  | none => parseAbsolute lib timeStr absoluteTimeFormats

/-- Two's-complement wrap of an integer into `int64`. -/
def wrapInt64 (x : Int) : Int :=
  (x + 2 ^ 63) % 2 ^ 64 - 2 ^ 63

/-- The method `Time.UnixMilli`: whole milliseconds since the epoch, rounded down,
computed in `int64` from seconds and the nanosecond remainder. -/
def unixMilli (t : Time) : Int :=
  wrapInt64 (t / 1000000000 * 1000 + t % 1000000000 / 1000000)

/-- The struct `cloudwatchlogs.FilterLogEventsInput`, the fields the program sets.
A nil `LogStreamNames` is the empty list. -/
structure FilterLogEventsInput where
  Interleaved : Option Bool
  LogGroupName : Option String
  LogStreamNames : List String
  StartTime : Option Int
  EndTime : Option Int
  FilterPattern : Option String
  deriving DecidableEq, Repr

/-- The method `Configuration.FilterLogEventsInput` (configuration.go 75-107), with the
reading of `time.Now()` as the argument `currentTime`.  A bound whose text is
empty, or for which `getTime` returns an error, stays nil. -/
def Configuration.FilterLogEventsInput (lib : TimeLib) (sortSlice : SliceSorter)
    (currentTime : Time) (c : Configuration) : FilterLogEventsInput :=
  { Interleaved := some true
    LogGroupName := some c.Group
    LogStreamNames := if c.Streams.length ≠ 0 then c.TopStreamNames sortSlice else []
    StartTime :=
      if c.Start ≠ "" then
        match getTime lib c.Start currentTime with
        | .ok st => some (unixMilli st)
        | .error _ => none
      else none
    EndTime :=
      if c.End ≠ "" then
        match getTime lib c.End currentTime with
        | .ok et => some (unixMilli et)
        | .error _ => none
      else none
    FilterPattern := if c.Filter ≠ "" then some c.Filter else none }

/-! ### A reference model of the two `time` routines

The theorems about `getTime` hold for every `TimeLib`.  To evaluate `getTime`
on concrete strings a library is needed; `goTime` below follows the
documented behaviour of `time.ParseDuration` (the grammar
`[-+]?([0-9]*(\.[0-9]*)?[a-z]+)+` with its units and overflow checks, the
fraction of a group going through `float64` as in the library) and of
`time.Parse` for the three layouts of `absoluteTimeFormats`: fixed-width
year, month, day, minute and second, an hour of one or two digits, an
optional fraction of a second after the seconds, one or more blanks where the
layout has a blank, and a zone `Z` or `±hh:mm`; UTC when the layout has no
zone. -/

/-- ASCII digit. -/
def isDigit (c : Char) : Bool := decide (48 ≤ c.toNat) && decide (c.toNat ≤ 57)

/-- Value of an ASCII digit. -/
def digitVal (c : Char) : Nat := c.toNat - 48

/-- The leading decimal integer of a string and the rest; `none` on overflow
past `2^63`. -/
def leadingInt : Nat → List Char → Option (Nat × List Char)
  | x, [] => some (x, [])
  | x, c :: cs =>
    if isDigit c then
      if x > 2 ^ 63 / 10 then none
      else if x * 10 + digitVal c > 2 ^ 63 then none
      else leadingInt (x * 10 + digitVal c) cs
    else some (x, c :: cs)

/-- The leading digits of a fraction as a numerator and a power-of-ten
denominator, and the rest; digits past overflow are dropped. -/
def leadingFraction : Nat → Nat → Bool → List Char → Nat × Nat × List Char
  | x, scale, _, [] => (x, scale, [])
  | x, scale, overflow, c :: cs =>
    if isDigit c then
      if overflow then leadingFraction x scale true cs
      else if x > (2 ^ 63 - 1) / 10 then leadingFraction x scale true cs
      else if x * 10 + digitVal c > 2 ^ 63 then leadingFraction x scale true cs
      else leadingFraction (x * 10 + digitVal c) (scale * 10) false cs
    else (x, scale, c :: cs)

/-- Position of the highest set bit of `n` (`0` for `n < 2`), for numbers
below `2 ^ fuel`. -/
def log2Upto : Nat → Nat → Nat
  | 0, _ => 0
  | fuel + 1, n => if n < 2 then 0 else 1 + log2Upto fuel (n / 2)

/-- The `float64` nearest to the positive fraction `n / d` (ties to even,
normal range), as an exact fraction: the 53-bit significand is the rounded
quotient at the binary exponent of `n / d`. -/
def f64Round (n d : Nat) : Nat × Nat :=
  if n = 0 ∨ d = 0 then (0, 1)
  else
    let e0 : Int := (log2Upto 256 n : Int) - (log2Upto 256 d : Int) - 52
    let num0 : Nat := if e0 < 0 then n * 2 ^ (-e0).toNat else n
    let den0 : Nat := if e0 < 0 then d else d * 2 ^ e0.toNat
    let e : Int := if num0 / den0 < 2 ^ 52 then e0 - 1 else e0
    let num : Nat := if e < 0 then n * 2 ^ (-e).toNat else n
    let den : Nat := if e < 0 then d else d * 2 ^ e.toNat
    let m : Nat := num / den
    let r : Nat := num % den
    let m1 : Nat := if 2 * r > den ∨ (2 * r = den ∧ m % 2 = 1) then m + 1 else m
    if e < 0 then (m1, 2 ^ (-e).toNat) else (m1 * 2 ^ e.toNat, 1)

/-- The contribution of a fraction to a group of a duration:
`uint64(float64(f) * (float64(unit) / scale))`, every operation rounded to
`float64`, the result truncated. -/
def fractionNanos (f unit scale : Nat) : Nat :=
  let q := f64Round unit scale
  let x := f64Round f 1
  let p := f64Round (x.1 * q.1) (x.2 * q.2)
  p.1 / p.2

/-- Nanoseconds in a duration unit. -/
def unitNanos (u : String) : Option Nat :=
  if u = "ns" then some 1
  else if u = "us" ∨ u = "µs" ∨ u = "μs" then some 1000
  else if u = "ms" then some 1000000
  else if u = "s" then some 1000000000
  else if u = "m" then some 60000000000
  else if u = "h" then some 3600000000000
  else none

/-- Start of a number: a digit or the decimal point. -/
def isNumberChar (c : Char) : Bool := decide (c = '.') || isDigit c

/-- The loop of `time.ParseDuration` over `number unit` groups, adding up
nanoseconds; the first argument bounds the number of groups. -/
def durationGroups : Nat → List Char → Nat → Option Nat
  | _, [], d => some d
  | 0, _ :: _, _ => none
  | fuel + 1, c :: cs, d =>
    if !isNumberChar c then none
    else
      match leadingInt 0 (c :: cs) with
      | none => none
      | some (v, s1) =>
        let frac : Nat × Nat × List Char × Bool :=
          match s1 with
          | '.' :: r =>
            let res := leadingFraction 0 1 false r
            (res.1, res.2.1, res.2.2, decide (res.2.2.length ≠ r.length))
          | _ => (0, 1, s1, false)
        let pre := decide (s1.length ≠ (c :: cs).length)
        if !pre && !frac.2.2.2 then none
        else
          let u := frac.2.2.1.takeWhile (fun x => !isNumberChar x)
          let s3 := frac.2.2.1.dropWhile (fun x => !isNumberChar x)
          if u = [] then none
          else
            match unitNanos (String.mk u) with
            | none => none
            | some unit =>
              if v > 2 ^ 63 / unit then none
              else
                let v2 :=
                  if frac.1 > 0 then v * unit + fractionNanos frac.1 unit frac.2.1 else v * unit
                if v2 > 2 ^ 63 then none
                else if d + v2 > 2 ^ 63 then none
                else durationGroups fuel s3 (d + v2)

/-- Model of `time.ParseDuration`. -/
def goParseDuration (s : String) : Option Duration :=
  let signed : Bool × List Char :=
    match s.toList with
    | '-' :: r => (true, r)
    | '+' :: r => (false, r)
    | cs => (false, cs)
  if signed.2 = ['0'] then some 0
  else if signed.2 = [] then none
  else
    match durationGroups signed.2.length signed.2 0 with
    | none => none
    | some d =>
      if signed.1 then some (-(d : Int))
      else if d > 2 ^ 63 - 1 then none
      else some (d : Int)

/-- Exactly two digits. -/
def twoDigits : List Char → Option (Nat × List Char)
  | a :: b :: r =>
    if isDigit a && isDigit b then some (digitVal a * 10 + digitVal b, r) else none
  | _ => none

/-- Exactly four digits. -/
def fourDigits : List Char → Option (Nat × List Char)
  | a :: b :: c :: d :: r =>
    if isDigit a && isDigit b && isDigit c && isDigit d then
      some (digitVal a * 1000 + digitVal b * 100 + digitVal c * 10 + digitVal d, r)
    else none
  | _ => none

/-- One given character. -/
def expectChar (c : Char) : List Char → Option (List Char)
  | x :: r => if x = c then some r else none
  | [] => none

/-- Gregorian leap year. -/
def isLeap (y : Nat) : Bool :=
  decide (y % 4 = 0) && (decide (y % 100 ≠ 0) || decide (y % 400 = 0))

/-- Days in a month. -/
def daysIn (m y : Nat) : Nat :=
  if m = 2 then (if isLeap y then 29 else 28)
  else if m = 4 ∨ m = 6 ∨ m = 9 ∨ m = 11 then 30
  else 31

/-- Days from 1970-01-01 to the given civil date (proleptic Gregorian). -/
def daysFromCivil (y m d : Nat) : Int :=
  let y1 : Int := if m ≤ 2 then (y : Int) - 1 else (y : Int)
  let era : Int := y1 / 400
  let yoe : Int := y1 - era * 400
  let mp : Int := if m > 2 then (m : Int) - 3 else (m : Int) + 9
  let doy : Int := (153 * mp + 2) / 5 + (d : Int) - 1
  let doe : Int := yoe * 365 + yoe / 4 - yoe / 100 + doy
  era * 146097 + doe - 719468

/-- A date `YYYY-MM-DD` with month and day in range: days since the epoch. -/
def parseDate (cs : List Char) : Option (Int × List Char) :=
  match fourDigits cs with
  | none => none
  | some (y, r1) =>
    match expectChar '-' r1 with
    | none => none
    | some r2 =>
      match twoDigits r2 with
      | none => none
      | some (m, r3) =>
        match expectChar '-' r3 with
        | none => none
        | some r4 =>
          match twoDigits r4 with
          | none => none
          | some (d, r5) =>
            if m < 1 ∨ 12 < m ∨ d < 1 ∨ daysIn m y < d then none
            else some (daysFromCivil y m d, r5)

/-- One or two digits (`getnum` without fixed width). -/
def oneOrTwoDigits : List Char → Option (Nat × List Char)
  | [] => none
  | [a] => if isDigit a then some (digitVal a, []) else none
  | a :: b :: r =>
    if isDigit a then
      if isDigit b then some (digitVal a * 10 + digitVal b, r) else some (digitVal a, b :: r)
    else none

/-- Decimal value of a list of digits. -/
def digitsVal (ds : List Char) : Nat :=
  ds.foldl (fun acc c => acc * 10 + digitVal c) 0

/-- An optional fraction of a second, `.` or `,` followed by digits, of
which the first nine count: nanoseconds and the rest. -/
def fractionalSecond : List Char → Nat × List Char
  | c :: d :: r =>
    if (decide (c = '.') || decide (c = ',')) && isDigit d then
      let ds := (d :: r).takeWhile isDigit
      (digitsVal (ds.take 9) * 10 ^ (9 - (ds.take 9).length), (d :: r).dropWhile isDigit)
    else (0, c :: d :: r)
  | cs => (0, cs)

/-- A clock reading `H:MM:SS` or `HH:MM:SS` with each field in range and an
optional fraction of a second: nanoseconds since midnight. -/
def parseClock (cs : List Char) : Option (Int × List Char) :=
  match oneOrTwoDigits cs with
  | none => none
  | some (h, r1) =>
    match expectChar ':' r1 with
    | none => none
    | some r2 =>
      match twoDigits r2 with
      | none => none
      | some (mi, r3) =>
        match expectChar ':' r3 with
        | none => none
        | some r4 =>
          match twoDigits r4 with
          | none => none
          | some (sec, r5) =>
            if 24 ≤ h ∨ 60 ≤ mi ∨ 60 ≤ sec then none
            else
              some (((h : Int) * 3600 + (mi : Int) * 60 + (sec : Int)) * 1000000000
                + ((fractionalSecond r5).1 : Int), (fractionalSecond r5).2)

/-- A zone `Z` or `±hh:mm` with `hh ≤ 24` and `mm ≤ 60`: offset east of UTC
in seconds. -/
def parseZone (cs : List Char) : Option (Int × List Char) :=
  match cs with
  | 'Z' :: r => some (0, r)
  | sign :: r =>
    match twoDigits r with
    | none => none
    | some (h, r1) =>
      match expectChar ':' r1 with
      | none => none
      | some r2 =>
        match twoDigits r2 with
        | none => none
        | some (mi, r3) =>
          if 24 < h ∨ 60 < mi then none
          else if sign = '+' then some ((((h : Int) * 60 + (mi : Int)) * 60), r3)
          else if sign = '-' then some (-(((h : Int) * 60 + (mi : Int)) * 60), r3)
          else none
  | [] => none

/-- Model of `time.Parse` for the layouts of `absoluteTimeFormats`. -/
def goParse (layout value : String) : Option Time :=
  if layout = "2006-01-02" then
    match parseDate value.toList with
    | some (days, []) => some (days * 86400 * 1000000000)
    | _ => none
  else if layout = "2006-01-02 15:04:05" then
    match parseDate value.toList with
    | some (days, ' ' :: r) =>
      match parseClock (r.dropWhile (fun c => decide (c = ' '))) with
      | some (nanos, []) => some (days * 86400 * 1000000000 + nanos)
      | _ => none
    | _ => none
  else if layout = RFC3339 then
    match parseDate value.toList with
    | some (days, 'T' :: r) =>
      match parseClock r with
      | some (nanos, r1) =>
        match parseZone r1 with
        | some (off, []) => some (days * 86400 * 1000000000 + nanos - off * 1000000000)
        | _ => none
      | none => none
    | _ => none
  else none

/-- The reference library. -/
def goTime : TimeLib := { parseDuration := goParseDuration, parse := goParse }

/-- An instant used in examples: 2023-11-14 22:13:20 UTC. -/
def sampleNow : Time := 1700000000 * 1000000000

/-! ## Lemmas about the live-tail loop: case analysis of one step -/

theorem processEvent_advance (st : TailState) (e : FilteredLogEvent)
    (h : st.lastSeenTime = none ∨ ∃ t, st.lastSeenTime = some t ∧ t < e.timestamp) :
    processEvent st e =
      { lastSeenTime := some e.timestamp, seenEventIDs := [e.eventID],
        startTime := st.startTime, printed := st.printed ++ [e] } := by
  rcases h with h | ⟨t, h, ht⟩
  · simp [processEvent, advanceWindow, h]
  · simp [processEvent, advanceWindow, h, ht]

theorem processEvent_seen (st : TailState) (e : FilteredLogEvent) (t : Int)
    (h : st.lastSeenTime = some t) (ht : e.timestamp ≤ t) (hs : e.eventID ∈ st.seenEventIDs) :
    processEvent st e = st := by
  have : ¬ e.timestamp > t := not_lt.mpr ht
  simp [processEvent, advanceWindow, h, this, hs]

theorem processEvent_fresh (st : TailState) (e : FilteredLogEvent) (t : Int)
    (h : st.lastSeenTime = some t) (ht : e.timestamp ≤ t) (hs : e.eventID ∉ st.seenEventIDs) :
    processEvent st e =
      { lastSeenTime := some t, seenEventIDs := e.eventID :: st.seenEventIDs,
        startTime := st.startTime, printed := st.printed ++ [e] } := by
  have : ¬ e.timestamp > t := not_lt.mpr ht
  simp [processEvent, advanceWindow, h, this, hs]

/-- The three ways one record can be handled. -/
theorem processEvent_cases (st : TailState) (e : FilteredLogEvent) :
    (st.lastSeenTime = none ∨ ∃ t, st.lastSeenTime = some t ∧ t < e.timestamp) ∨
    (∃ t, st.lastSeenTime = some t ∧ e.timestamp ≤ t ∧ e.eventID ∈ st.seenEventIDs) ∨
    (∃ t, st.lastSeenTime = some t ∧ e.timestamp ≤ t ∧ e.eventID ∉ st.seenEventIDs) := by
  cases h : st.lastSeenTime with
  | none => exact Or.inl (Or.inl rfl)
  | some t =>
    by_cases ht : t < e.timestamp
    · exact Or.inl (Or.inr ⟨t, rfl, ht⟩)
    · by_cases hs : e.eventID ∈ st.seenEventIDs
      · exact Or.inr (Or.inl ⟨t, rfl, not_lt.mp ht, hs⟩)
      · exact Or.inr (Or.inr ⟨t, rfl, not_lt.mp ht, hs⟩)

theorem processEvents_nil (st : TailState) : processEvents st [] = st := rfl

theorem processEvents_cons (st : TailState) (e : FilteredLogEvent) (es : List FilteredLogEvent) :
    processEvents st (e :: es) = processEvents (processEvent st e) es := rfl

theorem processEvents_append (st : TailState) (es fs : List FilteredLogEvent) :
    processEvents st (es ++ fs) = processEvents (processEvents st es) fs := by
  simp [processEvents, List.foldl_append]

/-! ### Pages and polls are only a grouping of the arrival sequence -/

theorem processEvent_startTime (st : TailState) (e : FilteredLogEvent) :
    (processEvent st e).startTime = st.startTime := by
  rcases processEvent_cases st e with h | ⟨t, h, ht, hs⟩ | ⟨t, h, ht, hs⟩
  · rw [processEvent_advance st e h]
  · rw [processEvent_seen st e t h ht hs]
  · rw [processEvent_fresh st e t h ht hs]

theorem processEvent_setStart (st : TailState) (e : FilteredLogEvent) (x : Option Int) :
    processEvent { st with startTime := x } e = { processEvent st e with startTime := x } := by
  rcases processEvent_cases st e with h | ⟨t, h, ht, hs⟩ | ⟨t, h, ht, hs⟩
  · rw [processEvent_advance st e h, processEvent_advance _ e (by simpa using h)]
  · rw [processEvent_seen st e t h ht hs, processEvent_seen _ e t (by simpa using h) ht (by simpa using hs)]
  · rw [processEvent_fresh st e t h ht hs, processEvent_fresh _ e t (by simpa using h) ht (by simpa using hs)]

theorem processEvents_setStart (es : List FilteredLogEvent) (st : TailState) (x : Option Int) :
    processEvents { st with startTime := x } es = { processEvents st es with startTime := x } := by
  induction es generalizing st with
  | nil => rfl
  | cons e es ih => rw [processEvents_cons, processEvent_setStart, ih, processEvents_cons]

theorem drainPages_eq (pages : Poll) (st : TailState) :
    drainPages st pages = processEvents st pages.flatten := by
  induction pages generalizing st with
  | nil => rfl
  | cons p ps ih =>
    show drainPages (processEvents st p) ps = _
    rw [ih, List.flatten_cons, processEvents_append]

theorem pollCycle_eq (st : TailState) (pages : Poll) :
    ∃ x, pollCycle st pages = { processEvents st pages.flatten with startTime := x } := by
  unfold pollCycle
  rw [drainPages_eq]
  dsimp only
  split
  · exact ⟨_, rfl⟩
  · exact ⟨(processEvents st pages.flatten).startTime, rfl⟩

/-- A run over polls is the record loop over the flattened arrival sequence,
up to the value of `input.StartTime`. -/
theorem runPolls_eq (polls : List Poll) (st : TailState) :
    ∃ x, runPolls st polls = { processEvents st (arrivals polls) with startTime := x } := by
  induction polls generalizing st with
  | nil => exact ⟨st.startTime, rfl⟩
  | cons p ps ih =>
    obtain ⟨x, hx⟩ := pollCycle_eq st p
    obtain ⟨y, hy⟩ := ih (pollCycle st p)
    refine ⟨y, ?_⟩
    show runPolls (pollCycle st p) ps = _
    rw [hy, hx, processEvents_setStart]
    simp [arrivals, processEvents_append]

theorem runPolls_printed (polls : List Poll) (st : TailState) :
    (runPolls st polls).printed = (processEvents st (arrivals polls)).printed := by
  obtain ⟨x, hx⟩ := runPolls_eq polls st
  rw [hx]

theorem runPolls_lastSeenTime (polls : List Poll) (st : TailState) :
    (runPolls st polls).lastSeenTime = (processEvents st (arrivals polls)).lastSeenTime := by
  obtain ⟨x, hx⟩ := runPolls_eq polls st
  rw [hx]

theorem runPolls_seenEventIDs (polls : List Poll) (st : TailState) :
    (runPolls st polls).seenEventIDs = (processEvents st (arrivals polls)).seenEventIDs := by
  obtain ⟨x, hx⟩ := runPolls_eq polls st
  rw [hx]

/-! ### In-order delivery -/

/-- Records delivered in order from a state whose dedup set only answers for
the current instant: the newly printed records have pairwise distinct
identifiers, none of them was in the set, all come from the input, and every
input record is either in the set or printed. -/
theorem processEvents_inOrder (es : List FilteredLogEvent) : ∀ st : TailState,
    InOrder es →
    (∀ a, st.lastSeenTime = some a → ∀ e ∈ es, a ≤ e.timestamp) →
    SameIdSameTime es →
    (∀ e ∈ es, e.eventID ∈ st.seenEventIDs → st.lastSeenTime = some e.timestamp) →
    ∃ out, (processEvents st es).printed = st.printed ++ out ∧
      (eventIDs out).Nodup ∧
      (∀ x ∈ eventIDs out, x ∉ st.seenEventIDs) ∧
      (∀ e ∈ out, e ∈ es) ∧
      (∀ e ∈ es, e.eventID ∈ st.seenEventIDs ∨ e.eventID ∈ eventIDs out) := by
  induction es with
  | nil =>
    intro st _ _ _ _
    exact ⟨[], by simp [processEvents_nil], by simp [eventIDs], by simp [eventIDs],
      by simp, by simp⟩
  | cons e es ih =>
    intro st hord hfloor hsame hseen
    have hord' : InOrder es := (List.pairwise_cons.mp hord).2
    have hle : ∀ f ∈ es, e.timestamp ≤ f.timestamp := (List.pairwise_cons.mp hord).1
    have hsame' : SameIdSameTime es := fun a ha b hb =>
      hsame a (List.mem_cons_of_mem _ ha) b (List.mem_cons_of_mem _ hb)
    have hsame_e : ∀ f ∈ es, f.eventID = e.eventID → f.timestamp = e.timestamp :=
      fun f hf hid => hsame f (List.mem_cons_of_mem _ hf) e (List.mem_cons_self _ _) hid
    rw [processEvents_cons]
    rcases processEvent_cases st e with h | ⟨t, h, ht, hs⟩ | ⟨t, h, ht, hs⟩
    · -- the window advances: the set is cleared and the record printed
      have hstep := processEvent_advance st e h
      have hnot : ∀ f, f = e ∨ f ∈ es → f.eventID ∉ st.seenEventIDs := by
        intro f hf hmem
        have hfl := hseen f (by simpa using hf) hmem
        have hge : e.timestamp ≤ f.timestamp := by
          rcases hf with rfl | hf
          · exact le_refl _
          · exact hle f hf
        rcases h with h | ⟨t, h, hlt⟩
        · rw [h] at hfl; cases hfl
        · rw [h] at hfl
          have : t = f.timestamp := Option.some.inj hfl
          omega
      obtain ⟨out, hp, hnd, hdis, hsub, hcov⟩ := ih (processEvent st e) hord'
        (by
          intro a ha f hf
          rw [hstep] at ha
          have : e.timestamp = a := Option.some.inj ha
          have := hle f hf
          omega)
        hsame'
        (by
          intro f hf hmem
          rw [hstep] at hmem ⊢
          have hid : f.eventID = e.eventID := by simpa using hmem
          show some e.timestamp = some f.timestamp
          rw [hsame_e f hf hid])
      refine ⟨e :: out, ?_, ?_, ?_, ?_, ?_⟩
      · rw [hp, hstep]; simp
      · have hne : e.eventID ∉ eventIDs out := fun hmem =>
          hdis _ hmem (by rw [hstep]; simp)
        simpa [eventIDs] using And.intro (by simpa [eventIDs] using hne) hnd
      · intro x hx
        have hx' : x = e.eventID ∨ x ∈ eventIDs out := by simpa [eventIDs] using hx
        rcases hx' with rfl | hx'
        · exact hnot e (Or.inl rfl)
        · obtain ⟨f, hf, rfl⟩ := List.mem_map.mp hx'
          exact hnot f (Or.inr (hsub f hf))
      · intro f hf
        rcases List.mem_cons.mp hf with rfl | hf
        · exact List.mem_cons_self _ _
        · exact List.mem_cons_of_mem _ (hsub f hf)
      · intro f hf
        right
        rcases List.mem_cons.mp hf with rfl | hf
        · simp [eventIDs]
        · rcases hcov f hf with hc | hc
          · rw [hstep] at hc
            have hid : f.eventID = e.eventID := by simpa using hc
            simp [eventIDs, hid]
          · simp only [eventIDs, List.map_cons, List.mem_cons]
            exact Or.inr hc
    · -- already in the set: suppressed, state unchanged
      have hstep := processEvent_seen st e t h ht hs
      rw [hstep]
      obtain ⟨out, hp, hnd, hdis, hsub, hcov⟩ := ih st hord'
        (fun a ha f hf => hfloor a ha f (List.mem_cons_of_mem _ hf)) hsame'
        (fun f hf hmem => hseen f (List.mem_cons_of_mem _ hf) hmem)
      refine ⟨out, hp, hnd, hdis, fun f hf => List.mem_cons_of_mem _ (hsub f hf), ?_⟩
      intro f hf
      rcases List.mem_cons.mp hf with rfl | hf
      · exact Or.inl hs
      · exact hcov f hf
    · -- same instant, new identifier: printed and recorded
      have hstep := processEvent_fresh st e t h ht hs
      have hte : e.timestamp = t := le_antisymm ht (hfloor t h e (List.mem_cons_self _ _))
      obtain ⟨out, hp, hnd, hdis, hsub, hcov⟩ := ih (processEvent st e) hord'
        (by
          intro a ha f hf
          rw [hstep] at ha
          have : t = a := Option.some.inj ha
          have := hle f hf
          omega)
        hsame'
        (by
          intro f hf hmem
          rw [hstep] at hmem ⊢
          have hm : f.eventID = e.eventID ∨ f.eventID ∈ st.seenEventIDs := by simpa using hmem
          rcases hm with hid | hm
          · show some t = some f.timestamp
            rw [hsame_e f hf hid, hte]
          · have := hseen f (List.mem_cons_of_mem _ hf) hm
            rw [h] at this
            exact this)
      have hdis' : ∀ x ∈ eventIDs out, x ≠ e.eventID ∧ x ∉ st.seenEventIDs := by
        intro x hx
        have := hdis x hx
        rw [hstep] at this
        simpa using this
      refine ⟨e :: out, ?_, ?_, ?_, ?_, ?_⟩
      · rw [hp, hstep]; simp
      · have hne : e.eventID ∉ eventIDs out := fun hmem => (hdis' _ hmem).1 rfl
        simpa [eventIDs] using And.intro (by simpa [eventIDs] using hne) hnd
      · intro x hx
        have hx' : x = e.eventID ∨ x ∈ eventIDs out := by simpa [eventIDs] using hx
        rcases hx' with rfl | hx'
        · exact hs
        · exact (hdis' x hx').2
      · intro f hf
        rcases List.mem_cons.mp hf with rfl | hf
        · exact List.mem_cons_self _ _
        · exact List.mem_cons_of_mem _ (hsub f hf)
      · intro f hf
        rcases List.mem_cons.mp hf with rfl | hf
        · right; simp [eventIDs]
        · rcases hcov f hf with hc | hc
          · rw [hstep] at hc
            have hm : f.eventID = e.eventID ∨ f.eventID ∈ st.seenEventIDs := by simpa using hc
            rcases hm with hid | hm
            · right; simp [eventIDs, hid]
            · exact Or.inl hm
          · right
            simp only [eventIDs, List.map_cons, List.mem_cons]
            exact Or.inr hc

/-! ### The advancing window -/

theorem windowLe_refl (a : Option Int) : windowLe a a :=
  fun x hx => ⟨x, hx, le_refl x⟩

theorem windowLe_trans {a b c : Option Int} (h1 : windowLe a b) (h2 : windowLe b c) :
    windowLe a c := by
  intro x hx
  obtain ⟨y, hy, hxy⟩ := h1 x hx
  obtain ⟨z, hz, hyz⟩ := h2 y hy
  exact ⟨z, hz, le_trans hxy hyz⟩

theorem processEvent_windowLe (st : TailState) (e : FilteredLogEvent) :
    windowLe st.lastSeenTime (processEvent st e).lastSeenTime := by
  rcases processEvent_cases st e with h | ⟨t, h, ht, hs⟩ | ⟨t, h, ht, hs⟩
  · rw [processEvent_advance st e h]
    intro x hx
    rcases h with h | ⟨t, h, hlt⟩
    · rw [h] at hx; cases hx
    · rw [h] at hx
      have : t = x := Option.some.inj hx
      exact ⟨e.timestamp, rfl, by omega⟩
  · rw [processEvent_seen st e t h ht hs]
    exact windowLe_refl _
  · rw [processEvent_fresh st e t h ht hs, h]
    exact windowLe_refl _

theorem processEvents_windowLe (es : List FilteredLogEvent) (st : TailState) :
    windowLe st.lastSeenTime (processEvents st es).lastSeenTime := by
  induction es generalizing st with
  | nil => exact windowLe_refl _
  | cons e es ih =>
    rw [processEvents_cons]
    exact windowLe_trans (processEvent_windowLe st e) (ih _)

theorem statesAfterEvents_windowLe (es : List FilteredLogEvent) (st : TailState) :
    (∀ s ∈ statesAfterEvents st es, windowLe st.lastSeenTime s.lastSeenTime) ∧
    (∀ s ∈ statesAfterEvents st es,
      windowLe s.lastSeenTime (processEvents st es).lastSeenTime) ∧
    ((statesAfterEvents st es).map TailState.lastSeenTime).Pairwise windowLe := by
  induction es generalizing st with
  | nil => simp [statesAfterEvents]
  | cons e es ih =>
    obtain ⟨ih1, ih2, ih3⟩ := ih (processEvent st e)
    refine ⟨?_, ?_, ?_⟩
    · intro s hs
      rcases List.mem_cons.mp hs with rfl | hs
      · exact processEvent_windowLe st e
      · exact windowLe_trans (processEvent_windowLe st e) (ih1 s hs)
    · intro s hs
      rw [processEvents_cons]
      rcases List.mem_cons.mp hs with rfl | hs
      · exact processEvents_windowLe es _
      · exact ih2 s hs
    · show (((processEvent st e) :: statesAfterEvents (processEvent st e) es).map
        TailState.lastSeenTime).Pairwise windowLe
      rw [List.map_cons, List.pairwise_cons]
      refine ⟨?_, ih3⟩
      intro o ho
      obtain ⟨s, hs, rfl⟩ := List.mem_map.mp ho
      exact ih1 s hs

theorem pollCycle_lastSeenTime (st : TailState) (pages : Poll) :
    (pollCycle st pages).lastSeenTime = (processEvents st pages.flatten).lastSeenTime := by
  obtain ⟨x, hx⟩ := pollCycle_eq st pages
  rw [hx]

theorem pollCycle_windowLe (st : TailState) (pages : Poll) :
    windowLe st.lastSeenTime (pollCycle st pages).lastSeenTime := by
  rw [pollCycle_lastSeenTime]
  exact processEvents_windowLe _ st

/-- After a cycle, a set `lastSeenTime` has been copied into `input.StartTime`. -/
theorem pollCycle_synced (st : TailState) (pages : Poll) (a : Int)
    (h : (pollCycle st pages).lastSeenTime = some a) :
    (pollCycle st pages).startTime = some a := by
  unfold pollCycle at h ⊢
  dsimp only at h ⊢
  split at h
  · rename_i t ht
    have hta : (drainPages st pages).lastSeenTime = some a := h
    rw [ht] at hta
    rw [ht]
    exact hta
  · rename_i hn
    rw [hn] at h
    cases h

theorem lastSeenTimeTrace_windowLe (polls : List Poll) (st : TailState) :
    (∀ o ∈ lastSeenTimeTrace st polls, windowLe st.lastSeenTime o) ∧
    (lastSeenTimeTrace st polls).Pairwise windowLe := by
  induction polls generalizing st with
  | nil => simp [lastSeenTimeTrace]
  | cons p ps ih =>
    obtain ⟨ih1, ih2⟩ := ih (pollCycle st p)
    obtain ⟨h1, h2, h3⟩ := statesAfterEvents_windowLe p.flatten st
    refine ⟨?_, ?_⟩
    · intro o ho
      rcases List.mem_append.mp ho with ho | ho
      · obtain ⟨s, hs, rfl⟩ := List.mem_map.mp ho
        exact h1 s hs
      · exact windowLe_trans (pollCycle_windowLe st p) (ih1 o ho)
    · show List.Pairwise windowLe (_ ++ _)
      rw [List.pairwise_append]
      refine ⟨h3, ih2, ?_⟩
      intro a ha b hb
      obtain ⟨s, hs, rfl⟩ := List.mem_map.mp ha
      have := h2 s hs
      rw [← pollCycle_lastSeenTime] at this
      exact windowLe_trans this (ih1 b hb)

theorem statesAfterCycles_windowLe (polls : List Poll) (st : TailState) :
    (∀ s ∈ statesAfterCycles st polls, windowLe st.lastSeenTime s.lastSeenTime ∧
      ∀ a, s.lastSeenTime = some a → s.startTime = some a) := by
  induction polls generalizing st with
  | nil => simp [statesAfterCycles]
  | cons p ps ih =>
    intro s hs
    rcases List.mem_cons.mp hs with rfl | hs
    · exact ⟨pollCycle_windowLe st p, pollCycle_synced st p⟩
    · exact ⟨windowLe_trans (pollCycle_windowLe st p) (ih _ s hs).1, (ih _ s hs).2⟩

/-! ### Invariants of the tail state -/

theorem processEvents_snoc (st : TailState) (es : List FilteredLogEvent) (e : FilteredLogEvent) :
    processEvents st (es ++ [e]) = processEvent (processEvents st es) e := by
  rw [processEvents_append]; rfl

/-- What holds of the tail state after any records, in any order: the set
only holds identifiers of printed records and of processed records not newer
than the window; the window is the greatest timestamp processed. -/
theorem tailState_invariant (startTime : Option Int) (es : List FilteredLogEvent) :
    (∀ x ∈ (processEvents (TailState.init startTime) es).seenEventIDs,
      x ∈ eventIDs (processEvents (TailState.init startTime) es).printed) ∧
    (∀ x ∈ (processEvents (TailState.init startTime) es).seenEventIDs,
      ∃ e ∈ es, e.eventID = x ∧
        ∃ t, (processEvents (TailState.init startTime) es).lastSeenTime = some t ∧
          e.timestamp ≤ t) ∧
    (∀ e ∈ es, ∃ t, (processEvents (TailState.init startTime) es).lastSeenTime = some t ∧
      e.timestamp ≤ t) ∧
    (∀ t, (processEvents (TailState.init startTime) es).lastSeenTime = some t →
      ∃ e ∈ es, e.timestamp = t) := by
  induction es using List.reverseRecOn with
  | nil => simp [processEvents_nil, TailState.init]
  | append_singleton es e ih =>
    obtain ⟨i1, i2, i3, i4⟩ := ih
    rw [processEvents_snoc]
    generalize processEvents (TailState.init startTime) es = st at i1 i2 i3 i4 ⊢
    have hwl := processEvent_windowLe st e
    have hup : ∀ f ∈ es, ∃ t, (processEvent st e).lastSeenTime = some t ∧ f.timestamp ≤ t := by
      intro f hf
      obtain ⟨t, ht, hft⟩ := i3 f hf
      obtain ⟨y, hy, hty⟩ := hwl t ht
      exact ⟨y, hy, le_trans hft hty⟩
    rcases processEvent_cases st e with h | ⟨t, h, ht, hs⟩ | ⟨t, h, ht, hs⟩
    · have hstep := processEvent_advance st e h
      refine ⟨?_, ?_, ?_, ?_⟩
      · intro x hx
        rw [hstep] at hx ⊢
        have : x = e.eventID := by simpa using hx
        simp [eventIDs, this]
      · intro x hx
        rw [hstep] at hx ⊢
        have : x = e.eventID := by simpa using hx
        exact ⟨e, by simp, this.symm, e.timestamp, rfl, le_refl _⟩
      · intro f hf
        rcases List.mem_append.mp hf with hf | hf
        · exact hup f hf
        · have : f = e := by simpa using hf
          rw [hstep, this]
          exact ⟨e.timestamp, rfl, le_refl _⟩
      · intro t ht
        rw [hstep] at ht
        exact ⟨e, by simp, Option.some.inj ht⟩
    · have hstep := processEvent_seen st e t h ht hs
      rw [hstep] at hup ⊢
      refine ⟨i1, ?_, ?_, ?_⟩
      · intro x hx
        obtain ⟨f, hf, hid, hrest⟩ := i2 x hx
        exact ⟨f, List.mem_append_left _ hf, hid, hrest⟩
      · intro f hf
        rcases List.mem_append.mp hf with hf | hf
        · exact hup f hf
        · have : f = e := by simpa using hf
          rw [this]
          exact ⟨t, h, ht⟩
      · intro u hu
        obtain ⟨f, hf, hft⟩ := i4 u hu
        exact ⟨f, List.mem_append_left _ hf, hft⟩
    · have hstep := processEvent_fresh st e t h ht hs
      refine ⟨?_, ?_, ?_, ?_⟩
      · intro x hx
        rw [hstep] at hx ⊢
        have hx' : x = e.eventID ∨ x ∈ st.seenEventIDs := by simpa using hx
        rcases hx' with rfl | hx'
        · simp [eventIDs]
        · have := i1 x hx'
          simp only [eventIDs, List.map_append, List.mem_append]
          exact Or.inl this
      · intro x hx
        rw [hstep] at hx ⊢
        have hx' : x = e.eventID ∨ x ∈ st.seenEventIDs := by simpa using hx
        rcases hx' with rfl | hx'
        · exact ⟨e, by simp, rfl, t, rfl, ht⟩
        · obtain ⟨f, hf, hid, u, hu, hfu⟩ := i2 x hx'
          rw [h] at hu
          exact ⟨f, List.mem_append_left _ hf, hid, u, hu, hfu⟩
      · intro f hf
        rcases List.mem_append.mp hf with hf | hf
        · exact hup f hf
        · have : f = e := by simpa using hf
          rw [hstep, this]
          exact ⟨t, rfl, ht⟩
      · intro u hu
        rw [hstep] at hu
        obtain ⟨f, hf, hft⟩ := i4 t h
        exact ⟨f, List.mem_append_left _ hf, by rw [hft]; exact Option.some.inj hu⟩

/-- The records printed by the record loop extend what was printed before by
a sublist of the input. -/
theorem processEvents_printed_sublist (es : List FilteredLogEvent) (st : TailState) :
    ∃ out, (processEvents st es).printed = st.printed ++ out ∧ out.Sublist es := by
  induction es generalizing st with
  | nil => exact ⟨[], by simp [processEvents_nil], List.Sublist.refl _⟩
  | cons e es ih =>
    obtain ⟨out, hp, hsub⟩ := ih (processEvent st e)
    rw [processEvents_cons, hp]
    rcases processEvent_cases st e with h | ⟨t, h, ht, hs⟩ | ⟨t, h, ht, hs⟩
    · rw [processEvent_advance st e h]
      exact ⟨e :: out, by simp, hsub.cons₂ e⟩
    · rw [processEvent_seen st e t h ht hs]
      exact ⟨out, rfl, hsub.cons e⟩
    · rw [processEvent_fresh st e t h ht hs]
      exact ⟨e :: out, by simp, hsub.cons₂ e⟩

/-- The exact content of the tail state after the records `es`: unless
nothing has arrived, `es` splits at the record `e` that last advanced the
window (the first record carrying the greatest timestamp), `lastSeenTime` is
the timestamp of `e`, the printed list is what was printed before `e` followed
by what has been printed from `e` on, and `seenEventIDs` lists, newest first,
the identifiers of the records printed from `e` on, which are pairwise
distinct and are all the identifiers that arrived from `e` on. -/
theorem tailState_window (startTime : Option Int) (es : List FilteredLogEvent) :
    (es = [] ∧ (processEvents (TailState.init startTime) es).seenEventIDs = [] ∧
        (processEvents (TailState.init startTime) es).lastSeenTime = none ∧
        (processEvents (TailState.init startTime) es).printed = []) ∨
      ∃ pre e post outPre outWin, es = pre ++ e :: post ∧
        (∀ f ∈ pre, f.timestamp < e.timestamp) ∧
        (∀ f ∈ post, f.timestamp ≤ e.timestamp) ∧
        (processEvents (TailState.init startTime) es).lastSeenTime = some e.timestamp ∧
        (processEvents (TailState.init startTime) es).printed = outPre ++ outWin ∧
        outPre.Sublist pre ∧ outWin.Sublist (e :: post) ∧
        (processEvents (TailState.init startTime) es).seenEventIDs
          = (eventIDs outWin).reverse ∧
        (eventIDs outWin).Nodup ∧
        (∀ f ∈ e :: post, f.eventID ∈ eventIDs outWin) := by
  induction es using List.reverseRecOn with
  | nil => exact Or.inl ⟨rfl, rfl, rfl, rfl⟩
  | append_singleton es g ih =>
    right
    rw [processEvents_snoc]
    generalize processEvents (TailState.init startTime) es = st at ih ⊢
    rcases ih with ⟨hes, -, hlast, hpr⟩ |
      ⟨pre, e, post, outPre, outWin, hes, hpre, hpost, hlast, hpr, hsubPre, hsubWin, hseen,
        hnd, hcov⟩
    · subst hes
      rw [processEvent_advance st g (Or.inl hlast)]
      exact ⟨[], g, [], [], [g], by simp, by simp, by simp, rfl, by simp [hpr],
        List.Sublist.refl _, List.Sublist.refl _, by simp [eventIDs], by simp [eventIDs],
        by simp [eventIDs]⟩
    · rcases processEvent_cases st g with h | ⟨t, h, ht, hs⟩ | ⟨t, h, ht, hs⟩
      · have hlt : e.timestamp < g.timestamp := by
          rcases h with h | ⟨t, h, hlt⟩
          · rw [hlast] at h; cases h
          · rw [hlast] at h
            have : e.timestamp = t := Option.some.inj h
            omega
        rw [processEvent_advance st g h]
        refine ⟨es, g, [], st.printed, [g], by simp, ?_, by simp, rfl, by simp, ?_,
          List.Sublist.refl _, by simp [eventIDs], by simp [eventIDs], by simp [eventIDs]⟩
        · intro f hf
          rw [hes] at hf
          rcases List.mem_append.mp hf with hf | hf
          · exact lt_trans (hpre f hf) hlt
          · rcases List.mem_cons.mp hf with rfl | hf
            · exact hlt
            · exact lt_of_le_of_lt (hpost f hf) hlt
        · rw [hpr, hes]
          exact hsubPre.append hsubWin
      · have hte : e.timestamp = t := by
          rw [hlast] at h; exact Option.some.inj h
        rw [processEvent_seen st g t h ht hs]
        refine ⟨pre, e, post ++ [g], outPre, outWin, by simp [hes], hpre, ?_, hlast, hpr,
          hsubPre, ?_, hseen, hnd, ?_⟩
        · intro f hf
          rcases List.mem_append.mp hf with hf | hf
          · exact hpost f hf
          · have : f = g := by simpa using hf
            rw [this, hte]; exact ht
        · exact hsubWin.trans (List.sublist_append_left (e :: post) [g])
        · intro f hf
          have hf' : f ∈ e :: post ∨ f = g := by
            simpa [List.mem_append, or_assoc] using hf
          rcases hf' with hf' | rfl
          · exact hcov f hf'
          · rw [hseen] at hs
            exact List.mem_reverse.mp hs
      · have hte : e.timestamp = t := by
          rw [hlast] at h; exact Option.some.inj h
        rw [processEvent_fresh st g t h ht hs]
        have hnot : g.eventID ∉ eventIDs outWin := by
          intro hmem
          exact hs (by rw [hseen]; exact List.mem_reverse.mpr hmem)
        refine ⟨pre, e, post ++ [g], outPre, outWin ++ [g], by simp [hes], hpre, ?_,
          by rw [← hte], by simp [hpr], hsubPre, ?_, ?_, ?_, ?_⟩
        · intro f hf
          rcases List.mem_append.mp hf with hf | hf
          · exact hpost f hf
          · have : f = g := by simpa using hf
            rw [this, hte]; exact ht
        · have h1 : (outWin ++ [g]).Sublist ((e :: post) ++ [g]) :=
            hsubWin.append (List.Sublist.refl _)
          simpa using h1
        · simp [eventIDs, hseen]
        · have : eventIDs (outWin ++ [g]) = eventIDs outWin ++ [g.eventID] := by
            simp [eventIDs]
          rw [this]
          exact List.Nodup.append hnd (by simp) (by simpa using hnot)
        · intro f hf
          have hf' : f ∈ e :: post ∨ f = g := by
            simpa [List.mem_append, or_assoc] using hf
          have : eventIDs (outWin ++ [g]) = eventIDs outWin ++ [g.eventID] := by
            simp [eventIDs]
          rw [this]
          rcases hf' with hf' | rfl
          · exact List.mem_append_left _ (hcov f hf')
          · simp

theorem statesAfterCycles_pairwise (polls : List Poll) (st : TailState) :
    (statesAfterCycles st polls).Pairwise CycleLe := by
  induction polls generalizing st with
  | nil => simp [statesAfterCycles]
  | cons p ps ih =>
    show List.Pairwise CycleLe (pollCycle st p :: statesAfterCycles (pollCycle st p) ps)
    rw [List.pairwise_cons]
    refine ⟨?_, ih _⟩
    intro s hs a ha
    obtain ⟨hw, hsync⟩ := statesAfterCycles_windowLe ps (pollCycle st p) s hs
    obtain ⟨b, hb, hab⟩ := hw a ha
    exact ⟨pollCycle_synced st p a ha, b, hb, hsync b hb, hab⟩

/-- The states at the end of the cycles are the states of the run after
one, two, ... polls. -/
theorem statesAfterCycles_getElem (polls : List Poll) (st : TailState) (n : Nat)
    (h : n < (statesAfterCycles st polls).length) :
    (statesAfterCycles st polls)[n] = runPolls st (polls.take (n + 1)) := by
  induction polls generalizing st n with
  | nil => simp [statesAfterCycles] at h
  | cons p ps ih =>
    cases n with
    | zero => rfl
    | succ n =>
      show (pollCycle st p :: statesAfterCycles (pollCycle st p) ps)[n + 1] = _
      rw [List.getElem_cons_succ, ih]
      rfl

/-! ## Properties of the live-tail loop -/

/-- C1 (as stated) fails: with poll 1 = A(t=100,id=1), B(t=105,id=2) and
poll 2 = A(t=100,id=1), the loop prints A, B, A: identifier 1 is emitted
twice, because B cleared the dedup set before A came back. -/
theorem streamEvents_atMostOnce_counterexample :
    (StreamEvents none staleRedeliveryPolls).printed
        = [mkEvent "1" 100, mkEvent "2" 105, mkEvent "1" 100] ∧
      (eventIDs (StreamEvents none staleRedeliveryPolls).printed).count "1" = 2 ∧
      ¬ (eventIDs (StreamEvents none staleRedeliveryPolls).printed).Nodup := by
  decide

/-- C1 (amended): when no record arrives with a timestamp behind an earlier
one and records with the same identifier carry the same timestamp, then for
any split into pages and polls each identifier occurs at most once in the
emitted output of `StreamEvents`. -/
theorem streamEvents_atMostOnce_inOrder (startTime : Option Int) (polls : List Poll)
    (hord : InOrder (arrivals polls)) (hsame : SameIdSameTime (arrivals polls)) :
    (eventIDs (StreamEvents startTime polls).printed).Nodup := by
  obtain ⟨out, hp, hnd, -, -, -⟩ :=
    processEvents_inOrder (arrivals polls) (TailState.init startTime) hord
      (by intro a ha; cases ha) hsame (by intro e _ hmem; simp [TailState.init] at hmem)
  unfold StreamEvents
  rw [runPolls_printed, hp]
  simpa [TailState.init] using hnd

/-- C1 (amended) on the scenario of the specification: the two polls are in
order and no identifier is printed twice. -/
theorem streamEvents_atMostOnce_inOrder_witness :
    InOrder (arrivals scenarioPolls) ∧ SameIdSameTime (arrivals scenarioPolls) ∧
      (eventIDs (StreamEvents none scenarioPolls).printed).Nodup :=
  ⟨by decide, by decide,
    streamEvents_atMostOnce_inOrder none scenarioPolls (by decide) (by decide)⟩

/-- C2: under in-order delivery (timestamps non-decreasing in arrival order,
equal identifiers carry equal timestamps) `StreamEvents` emits each distinct
identifier exactly once: the emitted identifiers are exactly those that
arrived, each with multiplicity one, and every emitted record is one that
arrived. -/
theorem streamEvents_exactlyOnce_inOrder (startTime : Option Int) (polls : List Poll)
    (hord : InOrder (arrivals polls)) (hsame : SameIdSameTime (arrivals polls)) :
    (∀ x, (eventIDs (StreamEvents startTime polls).printed).count x
        = if x ∈ eventIDs (arrivals polls) then 1 else 0) ∧
      (∀ e ∈ (StreamEvents startTime polls).printed, e ∈ arrivals polls) := by
  obtain ⟨out, hp, hnd, -, hsub, hcov⟩ :=
    processEvents_inOrder (arrivals polls) (TailState.init startTime) hord
      (by intro a ha; cases ha) hsame (by intro e _ hmem; simp [TailState.init] at hmem)
  have hpr : (StreamEvents startTime polls).printed = out := by
    unfold StreamEvents
    rw [runPolls_printed, hp]
    simp [TailState.init]
  rw [hpr]
  refine ⟨?_, hsub⟩
  intro x
  by_cases hx : x ∈ eventIDs (arrivals polls)
  · rw [if_pos hx]
    obtain ⟨e, he, rfl⟩ := List.mem_map.mp hx
    rcases hcov e he with hc | hc
    · simp [TailState.init] at hc
    · exact List.count_eq_one_of_mem hnd hc
  · rw [if_neg hx]
    apply List.count_eq_zero_of_not_mem
    intro hmem
    obtain ⟨e, he, rfl⟩ := List.mem_map.mp hmem
    exact hx (List.mem_map.mpr ⟨e, hsub e he, rfl⟩)

/-- C2, the scenario of the specification: the two polls are in order, the
loop prints A, B, C (each identifier once) and ends with lastSeenTime = 105,
seenIDs = {3} and the next query starting at 105. -/
theorem streamEvents_exactlyOnce_scenario :
    InOrder (arrivals scenarioPolls) ∧ SameIdSameTime (arrivals scenarioPolls) ∧
      ((∀ x, (eventIDs (StreamEvents none scenarioPolls).printed).count x
          = if x ∈ eventIDs (arrivals scenarioPolls) then 1 else 0) ∧
        (∀ e ∈ (StreamEvents none scenarioPolls).printed, e ∈ arrivals scenarioPolls)) ∧
      StreamEvents none [[[mkEvent "1" 100, mkEvent "2" 100]]]
        = { lastSeenTime := some 100, seenEventIDs := ["2", "1"], startTime := some 100,
            printed := [mkEvent "1" 100, mkEvent "2" 100] } ∧
      StreamEvents none scenarioPolls
        = { lastSeenTime := some 105, seenEventIDs := ["3"], startTime := some 105,
            printed := [mkEvent "1" 100, mkEvent "2" 100, mkEvent "3" 105] } :=
  ⟨by decide, by decide,
    streamEvents_exactlyOnce_inOrder none scenarioPolls (by decide) (by decide),
    by decide, by decide⟩

/-- C3: if every record of `R1` and of `R2` has timestamp `t`, then feeding
`R1` and then `R2` (two polls) to the loop from a state with an empty dedup
set and `lastSeenTime` unset or equal to `t` prints records whose
identifiers are pairwise distinct and are exactly the identifiers occurring
in `R1` or `R2`. -/
theorem sameInstant_requery_union (t : Int) (R1 R2 : List FilteredLogEvent) (st : TailState)
    (h1 : ∀ e ∈ R1, e.timestamp = t) (h2 : ∀ e ∈ R2, e.timestamp = t)
    (hlast : st.lastSeenTime = none ∨ st.lastSeenTime = some t)
    (hseen : st.seenEventIDs = []) :
    ∃ out, (runPolls st [[R1], [R2]]).printed = st.printed ++ out ∧
      (eventIDs out).Nodup ∧
      (∀ x, x ∈ eventIDs out ↔ x ∈ eventIDs R1 ∨ x ∈ eventIDs R2) ∧
      (∀ x, x ∈ eventIDs R1 ∨ x ∈ eventIDs R2 → (eventIDs out).count x = 1) := by
  have harr : arrivals [[R1], [R2]] = R1 ++ R2 := by simp [arrivals]
  have hall : ∀ e ∈ R1 ++ R2, e.timestamp = t := by
    intro e he
    rcases List.mem_append.mp he with he | he
    · exact h1 e he
    · exact h2 e he
  obtain ⟨out, hp, hnd, -, hsub, hcov⟩ :=
    processEvents_inOrder (R1 ++ R2) st
      (List.pairwise_of_forall_mem_list (fun a ha b hb => by rw [hall a ha, hall b hb]))
      (by
        intro a ha e he
        rcases hlast with hl | hl
        · rw [hl] at ha; cases ha
        · rw [hl] at ha
          have : t = a := Option.some.inj ha
          rw [hall e he, this])
      (fun a ha b hb _ => by rw [hall a ha, hall b hb])
      (by intro e _ hmem; rw [hseen] at hmem; cases hmem)
  have hiff : ∀ x, x ∈ eventIDs out ↔ x ∈ eventIDs R1 ∨ x ∈ eventIDs R2 := by
    intro x
    constructor
    · intro hx
      obtain ⟨e, he, rfl⟩ := List.mem_map.mp hx
      rcases List.mem_append.mp (hsub e he) with h | h
      · exact Or.inl (List.mem_map.mpr ⟨e, h, rfl⟩)
      · exact Or.inr (List.mem_map.mpr ⟨e, h, rfl⟩)
    · intro hx
      have : ∃ e ∈ R1 ++ R2, e.eventID = x := by
        rcases hx with hx | hx
        · obtain ⟨e, he, rfl⟩ := List.mem_map.mp hx
          exact ⟨e, List.mem_append_left _ he, rfl⟩
        · obtain ⟨e, he, rfl⟩ := List.mem_map.mp hx
          exact ⟨e, List.mem_append_right _ he, rfl⟩
      obtain ⟨e, he, rfl⟩ := this
      rcases hcov e he with hc | hc
      · rw [hseen] at hc; cases hc
      · exact hc
  refine ⟨out, ?_, hnd, hiff, ?_⟩
  · rw [runPolls_printed, harr, hp]
  · intro x hx
    exact List.count_eq_one_of_mem hnd ((hiff x).mpr hx)

/-- C3 at the instant 100 with `R1` = ids 1, 2 and `R2` = ids 2, 3, from the
initial state. -/
theorem sameInstant_requery_union_witness :
    ∃ out, (runPolls (TailState.init none)
        [[[mkEvent "1" 100, mkEvent "2" 100]], [[mkEvent "2" 100, mkEvent "3" 100]]]).printed
          = (TailState.init none).printed ++ out ∧
      (eventIDs out).Nodup ∧
      (∀ x, x ∈ eventIDs out ↔ x ∈ eventIDs [mkEvent "1" 100, mkEvent "2" 100] ∨
        x ∈ eventIDs [mkEvent "2" 100, mkEvent "3" 100]) ∧
      (∀ x, x ∈ eventIDs [mkEvent "1" 100, mkEvent "2" 100] ∨
        x ∈ eventIDs [mkEvent "2" 100, mkEvent "3" 100] → (eventIDs out).count x = 1) :=
  sameInstant_requery_union 100 [mkEvent "1" 100, mkEvent "2" 100]
    [mkEvent "2" 100, mkEvent "3" 100] (TailState.init none)
    (by decide) (by decide) (Or.inl rfl) rfl

/-- C4: along any run, `lastSeenTime` after each processed record is
monotone (any earlier value that is set is followed only by set values that
are not smaller, so it never decreases and is never unset), and across the
ends of cycles the value of `lastSeenTime`, which is the value written into
`input.StartTime` at the end of that cycle, never decreases. -/
theorem lastSeenTime_monotone (startTime : Option Int) (polls : List Poll) :
    (lastSeenTimeTrace (TailState.init startTime) polls).Pairwise windowLe ∧
      (∀ st e a, st.lastSeenTime = some a →
        ∃ b, (processEvent st e).lastSeenTime = some b ∧ a ≤ b) ∧
      (statesAfterCycles (TailState.init startTime) polls).Pairwise CycleLe ∧
      (∀ pre post a, polls = pre ++ post →
        (StreamEvents startTime pre).lastSeenTime = some a →
        ∃ b, (StreamEvents startTime polls).lastSeenTime = some b ∧ a ≤ b) := by
  refine ⟨(lastSeenTimeTrace_windowLe polls _).2, ?_, statesAfterCycles_pairwise polls _, ?_⟩
  · intro st e a ha
    exact processEvent_windowLe st e a ha
  · intro pre post a hsplit ha
    subst hsplit
    unfold StreamEvents at ha ⊢
    rw [runPolls_lastSeenTime] at ha ⊢
    have harr : arrivals (pre ++ post) = arrivals pre ++ arrivals post := by
      simp [arrivals]
    rw [harr, processEvents_append]
    exact processEvents_windowLe _ _ a ha

/-- C9: the records printed by `StreamEvents` form a sublist of the arrival
sequence (same relative order), and for each arriving record `e` the printed
list of the run is what the run had printed before `e` arrived (a sublist of
the earlier arrivals), then `e` itself unless it was left out, then a sublist
of the later arrivals; `e` is left out only when a record with the same
identifier is among those printed before it. -/
theorem emission_order (startTime : Option Int) (polls : List Poll) :
    (StreamEvents startTime polls).printed.Sublist (arrivals polls) ∧
      ∀ pre e post, arrivals polls = pre ++ e :: post →
        ∃ outPre outPost, outPre.Sublist pre ∧ outPost.Sublist post ∧
          (StreamEvents startTime [[pre]]).printed = outPre ∧
          ((StreamEvents startTime polls).printed = outPre ++ e :: outPost ∨
            ((StreamEvents startTime polls).printed = outPre ++ outPost ∧
              ∃ f ∈ outPre, f.eventID = e.eventID)) := by
  constructor
  · obtain ⟨out, hp, hsub⟩ :=
      processEvents_printed_sublist (arrivals polls) (TailState.init startTime)
    unfold StreamEvents
    rw [runPolls_printed, hp]
    simpa [TailState.init] using hsub
  · intro pre e post hsplit
    have hpre : (StreamEvents startTime [[pre]]).printed
        = (processEvents (TailState.init startTime) pre).printed := by
      unfold StreamEvents
      rw [runPolls_printed]
      simp [arrivals]
    have hall : (StreamEvents startTime polls).printed
        = (processEvents (processEvent (processEvents (TailState.init startTime) pre) e)
            post).printed := by
      unfold StreamEvents
      rw [runPolls_printed, hsplit, processEvents_append, processEvents_cons]
    obtain ⟨i1, -, -, -⟩ := tailState_invariant startTime pre
    obtain ⟨outPre, hpp, hsubPre⟩ :=
      processEvents_printed_sublist pre (TailState.init startTime)
    have hpp' : (processEvents (TailState.init startTime) pre).printed = outPre := by
      rw [hpp]; simp [TailState.init]
    rw [hpre, hall]
    generalize processEvents (TailState.init startTime) pre = st at i1 hpp' ⊢
    obtain ⟨outPost, hpo, hsubPost⟩ := processEvents_printed_sublist post (processEvent st e)
    refine ⟨outPre, outPost, hsubPre, hsubPost, hpp', ?_⟩
    rw [hpo]
    rcases processEvent_cases st e with h | ⟨t, h, ht, hs⟩ | ⟨t, h, ht, hs⟩
    · rw [processEvent_advance st e h]
      left
      simp [hpp']
    · rw [processEvent_seen st e t h ht hs]
      right
      obtain ⟨f, hf, hid⟩ := List.mem_map.mp (i1 _ hs)
      exact ⟨by rw [hpp'], f, by rw [← hpp']; exact hf, hid⟩
    · rw [processEvent_fresh st e t h ht hs]
      left
      simp [hpp']

/-- C10 (as stated) fails: after the single poll A(t=105,id=1),
B(t=100,id=2) the state has lastSeenTime = 105 and seenIDs = {2, 1}, and
identifier 2 belongs to no processed record with timestamp 105. -/
theorem seenIDs_current_instant_counterexample :
    (StreamEvents none outOfOrderPolls).lastSeenTime = some 105 ∧
      (StreamEvents none outOfOrderPolls).seenEventIDs = ["2", "1"] ∧
      ¬ (∀ x ∈ (StreamEvents none outOfOrderPolls).seenEventIDs,
          ∃ e ∈ arrivals outOfOrderPolls, e.eventID = x ∧
            (StreamEvents none outOfOrderPolls).lastSeenTime = some e.timestamp) := by
  decide

/-- C10 (amended): after `StreamEvents` has processed any records (the state
after the records `es` of an unfinished cycle is that of the single poll
`es`), either nothing has arrived and `seenEventIDs` is empty, or the
arrivals split at the record `e` that last advanced `lastSeenTime` (every
earlier record is strictly older, no later one is newer), `lastSeenTime` is
the timestamp of `e`, and `seenEventIDs` holds exactly the identifiers of
the records that arrived from `e` on, each of them the identifier of a
record printed from `e` on.  So every identifier in the set is that of a
processed and printed record whose timestamp is at most `lastSeenTime`, and
equal to it when the records arrived with non-decreasing timestamps.  A
record strictly newer than `lastSeenTime` empties the set before its
identifier is inserted, leaving exactly that identifier. -/
theorem seenIDs_invariant (startTime : Option Int) (polls : List Poll) :
    ((arrivals polls = [] ∧ (StreamEvents startTime polls).seenEventIDs = [] ∧
          (StreamEvents startTime polls).lastSeenTime = none) ∨
        ∃ pre e post outPre outWin, arrivals polls = pre ++ e :: post ∧
          (∀ f ∈ pre, f.timestamp < e.timestamp) ∧
          (∀ f ∈ post, f.timestamp ≤ e.timestamp) ∧
          (StreamEvents startTime polls).lastSeenTime = some e.timestamp ∧
          (StreamEvents startTime polls).printed = outPre ++ outWin ∧
          outPre.Sublist pre ∧ outWin.Sublist (e :: post) ∧
          (StreamEvents startTime polls).seenEventIDs = (eventIDs outWin).reverse ∧
          (eventIDs outWin).Nodup ∧
          (∀ x, x ∈ (StreamEvents startTime polls).seenEventIDs ↔
            x ∈ eventIDs (e :: post))) ∧
      (∀ x ∈ (StreamEvents startTime polls).seenEventIDs,
        ∃ f ∈ (StreamEvents startTime polls).printed, f ∈ arrivals polls ∧ f.eventID = x ∧
          ∃ t, (StreamEvents startTime polls).lastSeenTime = some t ∧ f.timestamp ≤ t) ∧
      (InOrder (arrivals polls) →
        ∀ x ∈ (StreamEvents startTime polls).seenEventIDs,
          ∃ f ∈ (StreamEvents startTime polls).printed, f ∈ arrivals polls ∧ f.eventID = x ∧
            (StreamEvents startTime polls).lastSeenTime = some f.timestamp) ∧
      (∀ e t, (StreamEvents startTime polls).lastSeenTime = some t → t < e.timestamp →
        (advanceWindow (StreamEvents startTime polls) e).seenEventIDs = [] ∧
          (StreamEvents startTime (polls ++ [[[e]]])).seenEventIDs = [e.eventID] ∧
          (StreamEvents startTime (polls ++ [[[e]]])).lastSeenTime = some e.timestamp) := by
  have hS1 : (StreamEvents startTime polls).seenEventIDs
      = (processEvents (TailState.init startTime) (arrivals polls)).seenEventIDs :=
    runPolls_seenEventIDs _ _
  have hS2 : (StreamEvents startTime polls).lastSeenTime
      = (processEvents (TailState.init startTime) (arrivals polls)).lastSeenTime :=
    runPolls_lastSeenTime _ _
  have hS3 : (StreamEvents startTime polls).printed
      = (processEvents (TailState.init startTime) (arrivals polls)).printed :=
    runPolls_printed _ _
  have hwin := tailState_window startTime (arrivals polls)
  rw [← hS1, ← hS2, ← hS3] at hwin
  refine ⟨?_, ?_, ?_, ?_⟩
  · rcases hwin with ⟨h0, hseen, hlast, -⟩ |
      ⟨pre, e, post, outPre, outWin, hes, hpre, hpost, hlast, hpr, hsubPre, hsubWin, hseen,
        hnd, hcov⟩
    · exact Or.inl ⟨h0, hseen, hlast⟩
    · refine Or.inr ⟨pre, e, post, outPre, outWin, hes, hpre, hpost, hlast, hpr, hsubPre,
        hsubWin, hseen, hnd, ?_⟩
      intro x
      rw [hseen, List.mem_reverse]
      constructor
      · intro hx
        obtain ⟨f, hf, rfl⟩ := List.mem_map.mp hx
        exact List.mem_map.mpr ⟨f, hsubWin.subset hf, rfl⟩
      · intro hx
        obtain ⟨f, hf, rfl⟩ := List.mem_map.mp hx
        exact hcov f hf
  · rcases hwin with ⟨-, hseen, -, -⟩ |
      ⟨pre, e, post, outPre, outWin, hes, hpre, hpost, hlast, hpr, hsubPre, hsubWin, hseen,
        hnd, hcov⟩
    · intro x hx
      rw [hseen] at hx; cases hx
    · intro x hx
      rw [hseen, List.mem_reverse] at hx
      obtain ⟨f, hf, rfl⟩ := List.mem_map.mp hx
      have hfe : f ∈ e :: post := hsubWin.subset hf
      refine ⟨f, by rw [hpr]; exact List.mem_append_right _ hf,
        by rw [hes]; exact List.mem_append_right _ hfe, rfl, e.timestamp, hlast, ?_⟩
      rcases List.mem_cons.mp hfe with rfl | hfp
      · exact le_refl _
      · exact hpost f hfp
  · intro hord
    rcases hwin with ⟨-, hseen, -, -⟩ |
      ⟨pre, e, post, outPre, outWin, hes, hpre, hpost, hlast, hpr, hsubPre, hsubWin, hseen,
        hnd, hcov⟩
    · intro x hx
      rw [hseen] at hx; cases hx
    · intro x hx
      rw [hseen, List.mem_reverse] at hx
      obtain ⟨f, hf, rfl⟩ := List.mem_map.mp hx
      have hfe : f ∈ e :: post := hsubWin.subset hf
      refine ⟨f, by rw [hpr]; exact List.mem_append_right _ hf,
        by rw [hes]; exact List.mem_append_right _ hfe, rfl, ?_⟩
      rw [hlast]
      rcases List.mem_cons.mp hfe with rfl | hfp
      · rfl
      · unfold InOrder at hord
        rw [hes] at hord
        have hge : e.timestamp ≤ f.timestamp :=
          (List.pairwise_cons.mp (List.pairwise_append.mp hord).2.1).1 f hfp
        have hle := hpost f hfp
        have : e.timestamp = f.timestamp := le_antisymm hge hle
        rw [this]
  · intro e t h hlt
    have harr : arrivals (polls ++ [[[e]]]) = arrivals polls ++ [e] := by
      simp [arrivals]
    have hstep : processEvents (TailState.init startTime) (arrivals (polls ++ [[[e]]]))
        = { lastSeenTime := some e.timestamp, seenEventIDs := [e.eventID],
            startTime :=
              (processEvents (TailState.init startTime) (arrivals polls)).startTime,
            printed :=
              (processEvents (TailState.init startTime) (arrivals polls)).printed ++ [e] } := by
      rw [harr, processEvents_snoc]
      exact processEvent_advance _ e (Or.inr ⟨t, by rw [← hS2]; exact h, hlt⟩)
    refine ⟨?_, ?_, ?_⟩
    · simp [advanceWindow, h, hlt]
    · show (runPolls (TailState.init startTime) (polls ++ [[[e]]])).seenEventIDs = _
      rw [runPolls_seenEventIDs, hstep]
    · show (runPolls (TailState.init startTime) (polls ++ [[[e]]])).lastSeenTime = _
      rw [runPolls_lastSeenTime, hstep]

/-- C10 (amended) on the in-order scenario of the specification: after both
polls the set is {3}, the identifier of the one record at instant 105, which
was printed. -/
theorem seenIDs_invariant_witness :
    InOrder (arrivals scenarioPolls) ∧
      (StreamEvents none scenarioPolls).seenEventIDs = ["3"] ∧
      ∀ x ∈ (StreamEvents none scenarioPolls).seenEventIDs,
        ∃ f ∈ (StreamEvents none scenarioPolls).printed,
          f ∈ arrivals scenarioPolls ∧ f.eventID = x ∧
            (StreamEvents none scenarioPolls).lastSeenTime = some f.timestamp :=
  ⟨by decide, by decide, (seenIDs_invariant none scenarioPolls).2.2.1 (by decide)⟩

/-! ## Lemmas about stream selection -/

theorem streamLess_eq_false_iff (a b : LogStream) : streamLess b a = false ↔ descLe a b := by
  simp [streamLess, descLe]

theorem insertionSort_descending (l : List LogStream) :
    (l.insertionSort (fun a b => streamLess b a = false)).Perm l ∧
      (l.insertionSort (fun a b => streamLess b a = false)).Pairwise
        (fun a b => streamLess b a = false) := by
  haveI : IsTotal LogStream (fun a b => streamLess b a = false) :=
    ⟨fun a b => by
      simp only [streamLess_eq_false_iff, descLe]
      exact le_total _ _⟩
  haveI : IsTrans LogStream (fun a b => streamLess b a = false) :=
    ⟨fun a b c h1 h2 => by
      simp only [streamLess_eq_false_iff, descLe] at h1 h2 ⊢
      exact le_trans h2 h1⟩
  exact ⟨List.perm_insertionSort _ l, List.sorted_insertionSort _ l⟩

theorem stableSorter_sorts : SortsSlice stableSorter := fun l => insertionSort_descending l

theorem reversingSorter_sorts : SortsSlice reversingSorter := fun l =>
  ⟨(insertionSort_descending l.reverse).1.trans (List.reverse_perm l),
    (insertionSort_descending l.reverse).2⟩

/-- The stable sort is a descending rearrangement that keeps the order of
any two streams with the same timestamp. -/
theorem stableSortDescending_spec (l : List LogStream) :
    (stableSortDescending l).Perm l ∧ (stableSortDescending l).Pairwise descLe ∧
      ∀ a b, [a, b].Sublist l → a.lastEvent = b.lastEvent →
        [a, b].Sublist (stableSortDescending l) := by
  refine ⟨(insertionSort_descending l).1, ?_, ?_⟩
  · exact (insertionSort_descending l).2.imp (fun h => (streamLess_eq_false_iff _ _).mp h)
  · intro a b hsub hab
    exact List.pair_sublist_insertionSort
      ((streamLess_eq_false_iff a b).mpr (by unfold descLe; omega)) hsub

/-- What `TopStreamNames` returns for any sorter within the contract. -/
theorem topStreamNames_eq (sortSlice : SliceSorter) (hsort : SortsSlice sortSlice)
    (c : Configuration) :
    (c.sortedStreams sortSlice).Perm c.Streams ∧
      (c.sortedStreams sortSlice).Pairwise descLe ∧
      c.TopStreamNames sortSlice
        = ((c.sortedStreams sortSlice).take (min 100 c.Streams.length)).map LogStream.name := by
  obtain ⟨hperm, hsorted⟩ := hsort c.Streams
  refine ⟨hperm, hsorted.imp (fun h => (streamLess_eq_false_iff _ _).mp h), ?_⟩
  have hlen : (c.sortedStreams sortSlice).length = c.Streams.length := hperm.length_eq
  unfold Configuration.TopStreamNames
  dsimp only
  rw [hlen]
  by_cases h : c.Streams.length < 100
  · rw [if_pos h, Nat.min_eq_right (Nat.le_of_lt h)]
  · rw [if_neg h, Nat.min_eq_left (Nat.le_of_not_lt h)]

/-- With pairwise distinct timestamps there is one descending rearrangement. -/
theorem descending_unique (l l1 l2 : List LogStream)
    (hdist : l.Pairwise (fun a b => a.lastEvent ≠ b.lastEvent))
    (hp1 : l1.Perm l) (hs1 : l1.Pairwise descLe)
    (hp2 : l2.Perm l) (hs2 : l2.Pairwise descLe) : l1 = l2 := by
  haveI : IsAntisymm LogStream (fun a b => b.lastEvent < a.lastEvent) :=
    ⟨fun a b h1 h2 => absurd h1 (not_lt.mpr (le_of_lt h2))⟩
  have strict : ∀ m : List LogStream, m.Perm l → m.Pairwise descLe →
      m.Pairwise (fun a b => b.lastEvent < a.lastEvent) := by
    intro m hp hs
    have hd : m.Pairwise (fun a b => a.lastEvent ≠ b.lastEvent) :=
      (hp.pairwise_iff (fun h => Ne.symm h)).mpr hdist
    exact (hs.and hd).imp (fun h => lt_of_le_of_ne h.1 (Ne.symm h.2))
  exact List.eq_of_perm_of_sorted (hp1.trans hp2.symm) (strict l1 hp1 hs1) (strict l2 hp2 hs2)

/-- A descending rearrangement is determined by the order of its ties. -/
theorem descending_unique_of_ties (l1 : List LogStream) : ∀ l2 : List LogStream,
    l1.Perm l2 → l1.Pairwise descLe → l2.Pairwise descLe →
    (∀ t : Int, l1.filter (fun s => decide (s.lastEvent = t))
      = l2.filter (fun s => decide (s.lastEvent = t))) → l1 = l2 := by
  induction l1 with
  | nil =>
    intro l2 hp _ _ _
    exact hp.nil_eq
  | cons a l1 ih =>
    intro l2 hp hs1 hs2 hf
    cases l2 with
    | nil => exact absurd hp.length_eq (by simp)
    | cons b l2 =>
      have ha : a ∈ b :: l2 := hp.subset (List.mem_cons_self _ _)
      have hb : b ∈ a :: l1 := hp.symm.subset (List.mem_cons_self _ _)
      have hkey : a.lastEvent = b.lastEvent := by
        rcases List.mem_cons.mp ha with h | h
        · rw [h]
        · rcases List.mem_cons.mp hb with h' | h'
          · rw [h']
          · have h1 : a.lastEvent ≤ b.lastEvent := (List.pairwise_cons.mp hs2).1 a h
            have h2 : b.lastEvent ≤ a.lastEvent := (List.pairwise_cons.mp hs1).1 b h'
            exact le_antisymm h1 h2
      have hhead := hf a.lastEvent
      rw [List.filter_cons_of_pos (by simp), List.filter_cons_of_pos (by simp [hkey])] at hhead
      have hab : a = b := (List.cons.inj hhead).1
      subst hab
      have htail : l1 = l2 := by
        apply ih l2 ((List.perm_cons a).mp hp) (List.pairwise_cons.mp hs1).2
          (List.pairwise_cons.mp hs2).2
        intro t
        by_cases ht : a.lastEvent = t
        · have := hf t
          rw [List.filter_cons_of_pos (by simp [ht]), List.filter_cons_of_pos (by simp [ht])]
            at this
          exact (List.cons.inj this).2
        · have := hf t
          rw [List.filter_cons_of_neg (by simp [ht]), List.filter_cons_of_neg (by simp [ht])]
            at this
          exact this
      rw [htail]

/-- Insertion sort keeps ties in their original order. -/
theorem stableSorter_keepsTies : KeepsTies stableSorter := by
  intro l t
  have hsub : (l.filter (fun s => decide (s.lastEvent = t))).Sublist
      (l.insertionSort (fun a b => streamLess b a = false)) := by
    apply List.sublist_insertionSort _ (List.filter_sublist l)
    apply List.pairwise_of_forall_mem_list
    intro a ha b hb
    have ha' : a.lastEvent = t := by simpa using (List.mem_filter.mp ha).2
    have hb' : b.lastEvent = t := by simpa using (List.mem_filter.mp hb).2
    rw [streamLess_eq_false_iff]
    unfold descLe
    omega
  have hsub' := hsub.filter (fun s => decide (s.lastEvent = t))
  rw [List.filter_filter] at hsub'
  simp only [Bool.and_self] at hsub'
  have hlen : ((l.insertionSort (fun a b => streamLess b a = false)).filter
      (fun s => decide (s.lastEvent = t))).length
      = (l.filter (fun s => decide (s.lastEvent = t))).length :=
    ((insertionSort_descending l).1.filter _).length_eq
  exact (hsub'.eq_of_length hlen.symm).symm

/-- Any sorter within the contract that keeps ties in order sorts as the
stable sort does. -/
theorem sortSlice_eq_stable (sortSlice : SliceSorter) (hsort : SortsSlice sortSlice)
    (hties : KeepsTies sortSlice) (l : List LogStream) :
    sortSlice streamLess l = stableSortDescending l := by
  obtain ⟨hperm, hsorted⟩ := hsort l
  obtain ⟨sp, ss, -⟩ := stableSortDescending_spec l
  apply descending_unique_of_ties _ _ (hperm.trans sp.symm)
    (hsorted.imp (fun h => (streamLess_eq_false_iff _ _).mp h)) ss
  intro t
  rw [hties l t]
  exact (stableSorter_keepsTies l t).symm

theorem manyStreams_distinct :
    manyStreams.Pairwise (fun a b => a.lastEvent ≠ b.lastEvent) := by
  decide

/-! ## Properties of stream selection -/

/-- C5: for a configuration with more than 100 streams whose last-event
timestamps are pairwise distinct, and any `sort.Slice` within its contract,
`TopStreamNames` returns exactly 100 names: those of 100 streams of the input
in strictly descending timestamp order, each later than every stream left
out; this is also the first 100 of the stable descending sort, and it is the
`LogStreamNames` of `FilterLogEventsInput`. -/
theorem topStreamNames_top100 (sortSlice : SliceSorter) (hsort : SortsSlice sortSlice)
    (c : Configuration) (hlen : 100 < c.Streams.length)
    (hdist : c.Streams.Pairwise (fun a b => a.lastEvent ≠ b.lastEvent)) :
    (c.TopStreamNames sortSlice).length = 100 ∧
      (∃ top rest : List LogStream, (top ++ rest).Perm c.Streams ∧ top.length = 100 ∧
        top.Pairwise (fun a b => b.lastEvent < a.lastEvent) ∧
        (∀ a ∈ top, ∀ b ∈ rest, b.lastEvent < a.lastEvent) ∧
        c.TopStreamNames sortSlice = top.map LogStream.name) ∧
      c.TopStreamNames sortSlice = stableTopNames c.Streams ∧
      (∀ lib now, (c.FilterLogEventsInput lib sortSlice now).LogStreamNames
        = c.TopStreamNames sortSlice) := by
  obtain ⟨hperm, hsorted, hnames⟩ := topStreamNames_eq sortSlice hsort c
  have hmin : min 100 c.Streams.length = 100 := Nat.min_eq_left (Nat.le_of_lt hlen)
  rw [hmin] at hnames
  have hlen' : (c.sortedStreams sortSlice).length = c.Streams.length := hperm.length_eq
  have hstrict : (c.sortedStreams sortSlice).Pairwise (fun a b => b.lastEvent < a.lastEvent) :=
    (hsorted.and ((hperm.pairwise_iff (fun h => Ne.symm h)).mpr hdist)).imp
      (fun h => lt_of_le_of_ne h.1 (Ne.symm h.2))
  have hsplit := List.take_append_drop 100 (c.sortedStreams sortSlice)
  have htl : ((c.sortedStreams sortSlice).take 100).length = 100 := by
    rw [List.length_take, hlen']
    exact Nat.min_eq_left (Nat.le_of_lt hlen)
  refine ⟨?_, ?_, ?_, ?_⟩
  · rw [hnames, List.length_map, htl]
  · refine ⟨(c.sortedStreams sortSlice).take 100, (c.sortedStreams sortSlice).drop 100,
      ?_, htl, ?_, ?_, hnames⟩
    · rw [hsplit]; exact hperm
    · rw [← hsplit] at hstrict
      exact (List.pairwise_append.mp hstrict).1
    · rw [← hsplit] at hstrict
      exact (List.pairwise_append.mp hstrict).2.2
  · obtain ⟨sp, ss, -⟩ := stableSortDescending_spec c.Streams
    have := descending_unique c.Streams _ _ hdist hperm hsorted sp ss
    rw [hnames, this]
    unfold stableTopNames
    rw [hmin]
  · intro lib now
    have hne : c.Streams.length ≠ 0 := by omega
    simp [Configuration.FilterLogEventsInput, hne]

/-- C5 on 101 streams `s0 .. s100` with increasing timestamps: exactly 100
names, newest first, the oldest stream `s0` left out. -/
theorem topStreamNames_top100_witness :
    SortsSlice stableSorter ∧ 100 < (streamsConfig manyStreams).Streams.length ∧
      ((streamsConfig manyStreams).TopStreamNames stableSorter).length = 100 ∧
      ((streamsConfig manyStreams).TopStreamNames stableSorter).take 3
        = ["s100", "s99", "s98"] ∧
      "s0" ∉ (streamsConfig manyStreams).TopStreamNames stableSorter :=
  ⟨stableSorter_sorts, by decide,
    (topStreamNames_top100 stableSorter stableSorter_sorts (streamsConfig manyStreams)
      (by decide) manyStreams_distinct).1,
    by decide, by decide⟩

/-- C6 (as stated) fails for a `sort.Slice` that is within its contract but
does not keep ties in order: for fifty streams given oldest first, `s0` and
`s1` sharing the oldest timestamp, `TopStreamNames` ends with `s1`, `s0`
where the stable sort ends with `s0`, `s1`. -/
theorem topStreamNames_tieBreak_counterexample :
    SortsSlice reversingSorter ∧
      ((streamsConfig tiedStreams).TopStreamNames reversingSorter).drop 48 = ["s1", "s0"] ∧
      (stableTopNames tiedStreams).drop 48 = ["s0", "s1"] ∧
      (streamsConfig tiedStreams).TopStreamNames reversingSorter
        ≠ stableTopNames (streamsConfig tiedStreams).Streams :=
  ⟨reversingSorter_sorts, by decide, by decide, by decide⟩

/-- C6 (amended): for any `sort.Slice` within its contract, `TopStreamNames`
returns the first `min(100, n)` names of a rearrangement of the input in
which timestamps never increase.  The order among streams with equal
timestamps is whatever the sort leaves; when the sort keeps ties in their
original order (as insertion sort does), or when no two timestamps are
equal, the result is that of the stable sort. -/
theorem topStreamNames_descending_initial (sortSlice : SliceSorter)
    (hsort : SortsSlice sortSlice) (c : Configuration) :
    (∃ sorted : List LogStream, sorted.Perm c.Streams ∧
        sorted.Pairwise (fun a b => b.lastEvent ≤ a.lastEvent) ∧
        c.TopStreamNames sortSlice
          = (sorted.take (min 100 c.Streams.length)).map LogStream.name) ∧
      c.TopStreamNames stableSorter = stableTopNames c.Streams ∧
      (c.Streams.Pairwise (fun a b => a.lastEvent ≠ b.lastEvent) →
        c.TopStreamNames sortSlice = stableTopNames c.Streams) ∧
      (KeepsTies sortSlice → c.TopStreamNames sortSlice = stableTopNames c.Streams) := by
  obtain ⟨hperm, hsorted, hnames⟩ := topStreamNames_eq sortSlice hsort c
  refine ⟨⟨c.sortedStreams sortSlice, hperm, hsorted, hnames⟩, ?_, ?_, ?_⟩
  rotate_left 2
  · intro hties
    rw [hnames]
    unfold Configuration.sortedStreams
    rw [sortSlice_eq_stable sortSlice hsort hties]
    rfl
  · exact (topStreamNames_eq stableSorter stableSorter_sorts c).2.2
  · intro hdist
    obtain ⟨sp, ss, -⟩ := stableSortDescending_spec c.Streams
    have := descending_unique c.Streams _ _ hdist hperm hsorted sp ss
    rw [hnames, this]
    rfl

/-- C6 (amended) on the fifty streams with a tie, for the sorter that does
not keep ties in order. -/
theorem topStreamNames_descending_initial_witness :
    SortsSlice reversingSorter ∧
      ∃ sorted : List LogStream, sorted.Perm (streamsConfig tiedStreams).Streams ∧
        sorted.Pairwise (fun a b => b.lastEvent ≤ a.lastEvent) ∧
        (streamsConfig tiedStreams).TopStreamNames reversingSorter
          = (sorted.take (min 100 (streamsConfig tiedStreams).Streams.length)).map
              LogStream.name :=
  ⟨reversingSorter_sorts,
    (topStreamNames_descending_initial reversingSorter reversingSorter_sorts
      (streamsConfig tiedStreams)).1⟩

/-! ## Lemmas about time bounds -/

theorem parseAbsolute_first (lib : TimeLib) (s : String) (pre : List String) (f : String)
    (post : List String) (t : Time) (hpre : ∀ g ∈ pre, lib.parse g s = none)
    (hf : lib.parse f s = some t) :
    parseAbsolute lib s (pre ++ f :: post) = .ok t := by
  induction pre with
  | nil => simp [parseAbsolute, hf]
  | cons g pre ih =>
    have hg : lib.parse g s = none := hpre g (List.mem_cons_self _ _)
    have := ih (fun x hx => hpre x (List.mem_cons_of_mem _ hx))
    simp [parseAbsolute, hg, this]

theorem parseAbsolute_error_iff (lib : TimeLib) (s : String) (fmts : List String) :
    (∃ err, parseAbsolute lib s fmts = .error err) ↔ ∀ f ∈ fmts, lib.parse f s = none := by
  induction fmts with
  | nil => simp [parseAbsolute]
  | cons g fmts ih =>
    cases hg : lib.parse g s with
    | none => simp [parseAbsolute, hg, ih]
    | some t => simp [parseAbsolute, hg]

/-- Inside the `int64` range `UnixMilli` is the number of whole milliseconds
since the epoch, rounded down. -/
theorem unixMilli_eq_floor (t : Int) (hlo : -2 ^ 63 ≤ t / 1000000)
    (hhi : t / 1000000 < 2 ^ 63) : unixMilli t = t / 1000000 := by
  have h63 : (2 : Int) ^ 63 = 9223372036854775808 := by norm_num
  have h64 : (2 : Int) ^ 64 = 18446744073709551616 := by norm_num
  have hms : t / 1000000000 * 1000 + t % 1000000000 / 1000000 = t / 1000000 := by omega
  unfold unixMilli wrapInt64
  rw [hms]
  rw [h63] at hlo hhi ⊢
  rw [h64]
  omega

/-! ## Properties of time parsing and the filter query -/

/-- C7: `getTime` follows the ordered fallback for any behaviour of the two
library parsers: a string that parses as a duration `d` gives `now + d`;
otherwise the first of the layouts RFC3339, `2006-01-02`,
`2006-01-02 15:04:05` that parses the string gives the result; and `getTime`
returns an error exactly when the duration parse and all three layouts fail.
In particular, for a library that reads `-2h` as minus two hours the result
is `now` minus two hours; for one that reads `2023-01-02` only by the
date-only layout, as the instant `T`, the result is `T`; for one that reads
`not-a-time` in no way, the result is the error. -/
theorem getTime_fallback (lib : TimeLib) (s : String) (now : Time) :
    (∀ d, lib.parseDuration s = some d → getTime lib s now = .ok (now + d)) ∧
      (lib.parseDuration s = none → ∀ pre f post t,
        absoluteTimeFormats = pre ++ f :: post → (∀ g ∈ pre, lib.parse g s = none) →
        lib.parse f s = some t → getTime lib s now = .ok t) ∧
      ((∃ err, getTime lib s now = .error err) ↔
        lib.parseDuration s = none ∧ ∀ f ∈ absoluteTimeFormats, lib.parse f s = none) ∧
      absoluteTimeFormats
        = ["2006-01-02T15:04:05Z07:00", "2006-01-02", "2006-01-02 15:04:05"] ∧
      (lib.parseDuration "-2h" = some (-(2 * 3600 * 1000000000)) →
        getTime lib "-2h" now = .ok (now - 2 * 3600 * 1000000000)) ∧
      (∀ T, lib.parseDuration "2023-01-02" = none →
        lib.parse "2006-01-02T15:04:05Z07:00" "2023-01-02" = none →
        lib.parse "2006-01-02" "2023-01-02" = some T →
        getTime lib "2023-01-02" now = .ok T) ∧
      (lib.parseDuration "not-a-time" = none →
        (∀ f ∈ absoluteTimeFormats, lib.parse f "not-a-time" = none) →
        getTime lib "not-a-time" now = .error "Could not parse relative or absolute time") := by
  refine ⟨?_, ?_, ?_, rfl, ?_, ?_, ?_⟩
  · intro d hd
    simp [getTime, hd]
  · intro hd pre f post t hsplit hpre hf
    simp only [getTime, hd, hsplit]
    exact parseAbsolute_first lib s pre f post t hpre hf
  · cases hd : lib.parseDuration s with
    | none =>
      simp only [getTime, hd, true_and]
      exact parseAbsolute_error_iff lib s absoluteTimeFormats
    | some d => simp [getTime, hd]
  · intro hd
    simp only [getTime, hd]
    congr 1
  · intro T hd h1 h2
    simp [getTime, hd, absoluteTimeFormats, RFC3339, parseAbsolute, h1, h2]
  · intro hd hall
    have h1 := hall "2006-01-02T15:04:05Z07:00" (by simp [absoluteTimeFormats, RFC3339])
    have h2 := hall "2006-01-02" (by simp [absoluteTimeFormats])
    have h3 := hall "2006-01-02 15:04:05" (by simp [absoluteTimeFormats])
    simp [getTime, hd, absoluteTimeFormats, RFC3339, parseAbsolute, h1, h2, h3]

/-- C7 on the reference library: `getTime("-2h", now)` is `now` minus two
hours, `getTime("2023-01-02", now)` is 2023-01-02 00:00:00 UTC
(1672617600 s after the epoch), `getTime("not-a-time", now)` is the error. -/
theorem getTime_fallback_witness :
    getTime goTime "-2h" sampleNow = .ok (sampleNow - 2 * 3600 * 1000000000) ∧
      getTime goTime "2023-01-02" sampleNow = .ok (1672617600 * 1000000000) ∧
      getTime goTime "not-a-time" sampleNow
        = .error "Could not parse relative or absolute time" ∧
      getTime goTime "2023-01-02T03:04:05+01:00" sampleNow
        = .ok ((1672617600 + 2 * 3600 + 4 * 60 + 5) * 1000000000) :=
  ⟨(getTime_fallback goTime "-2h" sampleNow).2.2.2.2.1 (by decide),
    (getTime_fallback goTime "2023-01-02" sampleNow).2.2.2.2.2.1 _ (by decide) (by decide)
      (by decide),
    (getTime_fallback goTime "not-a-time" sampleNow).2.2.2.2.2.2 (by decide) (by decide),
    (getTime_fallback goTime "2023-01-02T03:04:05+01:00" sampleNow).2.1 (by decide)
      [] RFC3339 ["2006-01-02", "2006-01-02 15:04:05"] _ rfl (by simp) (by decide)⟩

/-- C8: `FilterLogEventsInput` is a total function of the configuration;
its `StartTime` is nil exactly when `Start` is empty or `getTime` fails on
it, and is otherwise `UnixMilli` of the parsed instant; likewise `EndTime`
and `End`; the remaining fields are fixed by `Group`, `Streams` and `Filter`
alone, and changing `Start` (resp. `End`) changes no field other than
`StartTime` (resp. `EndTime`). -/
theorem filterLogEventsInput_bounds (lib : TimeLib) (sortSlice : SliceSorter) (now : Time)
    (c : Configuration) :
    ((c.FilterLogEventsInput lib sortSlice now).StartTime = none ↔
        c.Start = "" ∨ ∃ err, getTime lib c.Start now = .error err) ∧
      (∀ t, c.Start ≠ "" → getTime lib c.Start now = .ok t →
        (c.FilterLogEventsInput lib sortSlice now).StartTime = some (unixMilli t)) ∧
      ((c.FilterLogEventsInput lib sortSlice now).EndTime = none ↔
        c.End = "" ∨ ∃ err, getTime lib c.End now = .error err) ∧
      (∀ t, c.End ≠ "" → getTime lib c.End now = .ok t →
        (c.FilterLogEventsInput lib sortSlice now).EndTime = some (unixMilli t)) ∧
      (c.FilterLogEventsInput lib sortSlice now).Interleaved = some true ∧
      (c.FilterLogEventsInput lib sortSlice now).LogGroupName = some c.Group ∧
      (c.FilterLogEventsInput lib sortSlice now).LogStreamNames
        = (if c.Streams.length ≠ 0 then c.TopStreamNames sortSlice else []) ∧
      (c.FilterLogEventsInput lib sortSlice now).FilterPattern
        = (if c.Filter ≠ "" then some c.Filter else none) ∧
      (∀ start : String,
        Configuration.FilterLogEventsInput lib sortSlice now { c with Start := start }
          = { c.FilterLogEventsInput lib sortSlice now with
              StartTime := (Configuration.FilterLogEventsInput lib sortSlice now
                { c with Start := start }).StartTime }) ∧
      (∀ stop : String,
        Configuration.FilterLogEventsInput lib sortSlice now { c with End := stop }
          = { c.FilterLogEventsInput lib sortSlice now with
              EndTime := (Configuration.FilterLogEventsInput lib sortSlice now
                { c with End := stop }).EndTime }) := by
  have bound : ∀ text : String,
      ((if text ≠ "" then
          match getTime lib text now with
          | .ok st => some (unixMilli st)
          | .error _ => none
        else none) = none ↔ text = "" ∨ ∃ err, getTime lib text now = .error err) ∧
      (∀ t, text ≠ "" → getTime lib text now = .ok t →
        (if text ≠ "" then
          match getTime lib text now with
          | .ok st => some (unixMilli st)
          | .error _ => none
        else none) = some (unixMilli t)) := by
    intro text
    by_cases htext : text = ""
    · simp [htext]
    · cases hg : getTime lib text now with
      | error e => simp [htext]
      | ok t => simp [htext]
  refine ⟨(bound c.Start).1, (bound c.Start).2, (bound c.End).1, (bound c.End).2,
    rfl, rfl, rfl, rfl, ?_, ?_⟩
  · intro start
    simp [Configuration.FilterLogEventsInput, Configuration.TopStreamNames,
      Configuration.sortedStreams]
  · intro stop
    simp [Configuration.FilterLogEventsInput, Configuration.TopStreamNames,
      Configuration.sortedStreams]

/-- C8 on a configuration with a malformed `Start` and a date-only `End`:
the query is built, `StartTime` is nil and `EndTime` is the millisecond value
of 2023-01-02 00:00:00 UTC. -/
theorem filterLogEventsInput_bounds_witness :
    Configuration.FilterLogEventsInput goTime stableSorter sampleNow
        { streamsConfig [] with Start := "not-a-time", End := "2023-01-02" }
      = { Interleaved := some true, LogGroupName := some "group", LogStreamNames := [],
          StartTime := none, EndTime := some 1672617600000, FilterPattern := none } ∧
      ((Configuration.FilterLogEventsInput goTime stableSorter sampleNow
          { streamsConfig [] with Start := "not-a-time", End := "2023-01-02" }).StartTime = none ↔
        "not-a-time" = "" ∨ ∃ err, getTime goTime "not-a-time" sampleNow = .error err) :=
  ⟨by decide,
    (filterLogEventsInput_bounds goTime stableSorter sampleNow
      { streamsConfig [] with Start := "not-a-time", End := "2023-01-02" }).1⟩

end Saw

